import Mathlib

/-!
Verification of the discordsticker sticker-catalog core.

The Go sources are shallowly embedded here:
* a Go string is a `List Char` (one `Char` per Unicode code point / rune;
  for valid UTF-8 data, Go's byte-wise `strings.HasPrefix`, `strings.Contains`
  and `strings.Compare` agree with the code-point versions used here, because
  UTF-8 is self-synchronizing and order-preserving);
* the Name-Uniqueness Engine (`countUniqLenTwo`, `countUniqLen`, `withHint`);
* the flat-namespace `sticker.Manager` (`MatchedStickers`, `containedStickers`,
  `insertSticker` with `sort.Find`, `loadStickers`, `AddSticker`,
  `RenameSticker`), with the filesystem and HTTP transport abstracted as
  explicit inputs (success/failure of each external step) and the set of
  files on disk threaded as explicit state;
* the `utils.CoolDownCounter`, as a discrete-event transition system whose
  events are the two exported calls plus the firing of a pending
  sleep-goroutine timer.
-/

namespace DiscordSticker

/-- A Go string, viewed as its sequence of runes (Unicode code points). -/
abbrev GoStr := List Char

/-- `strings.ToLower`, restricted to the ASCII fragment of the Go Unicode
tables (the only fragment any claim exercises): each rune is lowered by
`Char.toLower`, which maps `A`..`Z` to `a`..`z` and fixes everything else. -/
def strToLower (s : GoStr) : GoStr := s.map Char.toLower

/-- `strings.Contains(s, sub)`: `sub` occurs as a contiguous substring of `s`. -/
def goContains : GoStr → GoStr → Bool
  | s, sub =>
    sub.isPrefixOf s ||
      match s with
      | [] => false
      | _ :: t => goContains t sub

/-- `strings.Compare` (byte-wise in Go; code-point-wise here, which agrees on
valid UTF-8 because the UTF-8 encoding is order-preserving). -/
def strCompare : GoStr → GoStr → Int
  | [], [] => 0
  | [], _ :: _ => -1
  | _ :: _, [] => 1
  | a :: as, b :: bs => if a < b then -1 else if b < a then 1 else strCompare as bs

/-- The strict order `s < t` used by `stickerSliceSorter.Less` (Go `<` on
strings), expressed through `strCompare`. -/
def strLt (s t : GoStr) : Prop := strCompare s t < 0

/-- The reflexive order `s ≤ t` on Go strings. -/
def strLe (s t : GoStr) : Prop := strCompare s t ≤ 0

instance : DecidablePred (fun p : GoStr × GoStr => strLt p.1 p.2) := fun _ => by
  unfold strLt; infer_instance

instance (s t : GoStr) : Decidable (strLt s t) := by unfold strLt; infer_instance

instance (s t : GoStr) : Decidable (strLe s t) := by unfold strLe; infer_instance

/-! ### Name-Uniqueness Engine (`countUniqLen.go`) -/

/-- `countUniqLenTwo(a, b)`: the length of the longest common prefix of the
rune sequences of `a` and `b` (the Go loop walks `i` while both strings agree). -/
def countUniqLenTwo : GoStr → GoStr → Nat
  | a :: as, b :: bs => if a = b then countUniqLenTwo as bs + 1 else 0
  | _, _ => 0

/-- The failure test of the `countUniqLen` inner loop:
`s == t || strings.HasPrefix(s, t) || strings.HasPrefix(t, s)`. -/
def uniqConflict (s t : GoStr) : Bool :=
  s == t || t.isPrefixOf s || s.isPrefixOf t

/-- The `countUniqLenError` value: the offending pair `(str1, str2)`. -/
structure CountUniqLenError where
  str1 : GoStr
  str2 : GoStr
deriving DecidableEq, Repr

/-- The inner loop of `countUniqLen` for a fixed outer index `i`:
`s` is `strs[i]`, `ts` is `strs[i+1:]`, `ri` is the current `ret[i]` and
`rs` the current `ret[i+1:]`.  For each `t` in turn it fails on a conflict,
otherwise raises `ret[i]` and `ret[j]` to `countUniqLenTwo(s,t)+1`. -/
def cULInner : GoStr → List GoStr → Nat → List Nat →
    Except CountUniqLenError (Nat × List Nat)
  | _, [], ri, rs => .ok (ri, rs)
  | s, t :: ts, ri, r :: rs =>
    if uniqConflict s t then .error ⟨s, t⟩
    else
      let l := countUniqLenTwo s t + 1
      match cULInner s ts (max ri l) rs with
      | .error e => .error e
      | .ok (ri', rs') => .ok (ri', max r l :: rs')
  | _, _ :: _, ri, [] => .ok (ri, [])

/-- The outer loop of `countUniqLen`: peels off `strs[i]` together with the
accumulator entry `ret[i]` and runs the inner loop against the remaining
strings.  (The `[]`/`_::_` accumulator mismatches are unreachable: the
accumulator always has the length of the string list.) -/
def cULOuter : List GoStr → List Nat → Except CountUniqLenError (List Nat)
  | [], _ => .ok []
  | s :: ss, r :: rs =>
    match cULInner s ss r rs with
    | .error e => .error e
    | .ok (ri, rs') =>
      match cULOuter ss rs' with
      | .error e => .error e
      | .ok rest => .ok (ri :: rest)
  | _ :: _, [] => .ok []

/-- `countUniqLen(strs)`: `ret := make([]int, len(strs))` followed by the
double loop over all pairs `i < j`. -/
def countUniqLen (strs : List GoStr) : Except CountUniqLenError (List Nat) :=
  cULOuter strs (List.replicate strs.length 0)

/-- `withHint(s, uniqLen)`: the name rendered with its optional part
bracketed, e.g. `abc[de]` for `uniqLen = 3`.  Go slices `rs[:uniqLen]` and
panics when `uniqLen` exceeds the rune length; the panic is modelled as
`none`. -/
def withHint (s : GoStr) (uniqLen : Nat) : Option GoStr :=
  if s.length = uniqLen then some s
  else if uniqLen ≤ s.length then
    some (s.take uniqLen ++ '[' :: (s.drop uniqLen ++ [']']))
  else none

example : countUniqLenTwo "abcde".toList "abx".toList = 2 := by decide
example : countUniqLen ["abc".toList, "abd".toList] = .ok [3, 3] := rfl
example : countUniqLen ["ab".toList, "abd".toList] = .error ⟨"ab".toList, "abd".toList⟩ := rfl
example : withHint "abcde".toList 3 = some "abc[de]".toList := by decide

/-! ### Characterization of the Name-Uniqueness Engine -/

theorem countUniqLenTwo_comm (a b : GoStr) : countUniqLenTwo a b = countUniqLenTwo b a := by
  induction a generalizing b with
  | nil => cases b <;> rfl
  | cons x xs ih =>
    cases b with
    | nil => rfl
    | cons y ys =>
      simp only [countUniqLenTwo]
      rcases eq_or_ne x y with rfl | h
      · simp [ih]
      · simp [h, h.symm]

/-- Raising the accumulator of the per-name fold commutes with folding. -/
def hintAgainst (s : GoStr) (others : List GoStr) (a : Nat) : Nat :=
  others.foldl (fun acc t => max acc (countUniqLenTwo s t + 1)) a

theorem cULInner_ok (s : GoStr) (ts : List GoStr) (ri : Nat) (rs : List Nat)
    (hlen : rs.length = ts.length)
    (hok : ∀ t ∈ ts, uniqConflict s t = false) :
    cULInner s ts ri rs =
      .ok (hintAgainst s ts ri,
           rs.zipWith (fun r t => max r (countUniqLenTwo s t + 1)) ts) := by
  induction ts generalizing ri rs with
  | nil => cases rs with
    | nil => rfl
    | cons r rs' => simp at hlen
  | cons t ts' ih =>
    cases rs with
    | nil => simp at hlen
    | cons r rs' =>
      simp only [List.length_cons, Nat.succ.injEq] at hlen
      have hconf : uniqConflict s t = false := hok t (by simp)
      have hrest : ∀ u ∈ ts', uniqConflict s u = false := fun u hu => hok u (by simp [hu])
      simp only [cULInner, hconf, Bool.false_eq_true, if_false,
        ih (max ri (countUniqLenTwo s t + 1)) rs' hlen hrest]
      rfl

theorem cULInner_error_exists (s : GoStr) (ts : List GoStr) (ri : Nat) (rs : List Nat)
    (hlen : rs.length = ts.length) (hconf : ∃ t ∈ ts, uniqConflict s t = true) :
    ∃ e, cULInner s ts ri rs = .error e := by
  induction ts generalizing ri rs with
  | nil => simp at hconf
  | cons t ts' ih =>
    cases rs with
    | nil => simp at hlen
    | cons r rs' =>
      simp only [List.length_cons, Nat.succ.injEq] at hlen
      by_cases h : uniqConflict s t = true
      · exact ⟨⟨s, t⟩, by simp [cULInner, h]⟩
      · simp only [List.mem_cons] at hconf
        obtain ⟨u, hu, huc⟩ := hconf
        have hu' : u ∈ ts' := by
          rcases hu with rfl | hu
          · exact absurd huc h
          · exact hu
        obtain ⟨e, he⟩ := ih (max ri (countUniqLenTwo s t + 1)) rs' hlen ⟨u, hu', huc⟩
        refine ⟨e, ?_⟩
        simp [cULInner, h, he]

theorem cULInner_error_mem (s : GoStr) (ts : List GoStr) (ri : Nat) (rs : List Nat)
    (e : CountUniqLenError) (he : cULInner s ts ri rs = .error e) :
    e.str1 = s ∧ e.str2 ∈ ts ∧ uniqConflict e.str1 e.str2 = true := by
  induction ts generalizing ri rs with
  | nil => cases rs <;> simp [cULInner] at he
  | cons t ts' ih =>
    cases rs with
    | nil => simp [cULInner] at he
    | cons r rs' =>
      by_cases h : uniqConflict s t = true
      · simp only [cULInner, h, if_true] at he
        cases he
        exact ⟨rfl, by simp, h⟩
      · rcases hrec : cULInner s ts' (max ri (countUniqLenTwo s t + 1)) rs' with e' | p
        · simp only [cULInner, h, Bool.false_eq_true, if_false, hrec,
            Except.error.injEq] at he
          subst he
          obtain ⟨h1, h2, h3⟩ := ih _ _ hrec
          exact ⟨h1, by simp [h2], h3⟩
        · simp [cULInner, h, hrec] at he

/-- No-conflict hypothesis for a whole list, exactly the pairs `i < j`
inspected by the double loop. -/
def NoPairConflict (strs : List GoStr) : Prop :=
  List.Pairwise (fun a b => uniqConflict a b = false) strs

theorem cULOuter_ok (strs : List GoStr) (init : List Nat)
    (hlen : init.length = strs.length) (hok : NoPairConflict strs) :
    ∃ ret, cULOuter strs init = .ok ret ∧ ret.length = strs.length ∧
      ∀ i, i < strs.length →
        ret.getD i 0 = hintAgainst (strs.getD i []) (strs.eraseIdx i) (init.getD i 0) := by
  induction strs generalizing init with
  | nil =>
    exact ⟨[], rfl, rfl, fun i h => by simp at h⟩
  | cons s ss ih =>
    cases init with
    | nil => simp at hlen
    | cons r rs =>
      simp only [List.length_cons, Nat.succ.injEq] at hlen
      unfold NoPairConflict at hok
      rw [List.pairwise_cons] at hok
      have hinner := cULInner_ok s ss r rs hlen (fun t ht => hok.1 t ht)
      have hlen' : (rs.zipWith (fun r t => max r (countUniqLenTwo s t + 1)) ss).length
          = ss.length := by
        simp [List.length_zipWith, hlen]
      obtain ⟨ret', hret', hretlen', hretval'⟩ := ih _ hlen' hok.2
      refine ⟨hintAgainst s ss r :: ret', ?_, by simp [hretlen'], ?_⟩
      · simp only [cULOuter, hinner, hret']
      · intro i h
        cases i with
        | zero => simp [List.eraseIdx_cons_zero]
        | succ k =>
          simp only [List.length_cons, Nat.succ_lt_succ_iff] at h
          have hv := hretval' k h
          simp only [List.getD_cons_succ, List.eraseIdx_cons_succ]
          rw [hv]
          have hk' : k < (rs.zipWith (fun r t => max r (countUniqLenTwo s t + 1)) ss).length := by
            omega
          have hkr : k < rs.length := by omega
          have hz : (rs.zipWith (fun r t => max r (countUniqLenTwo s t + 1)) ss).getD k 0
              = max (rs.getD k 0) (countUniqLenTwo s (ss.getD k []) + 1) := by
            rw [List.getD_eq_getElem _ _ hk', List.getElem_zipWith,
              List.getD_eq_getElem _ _ hkr, List.getD_eq_getElem _ _ h]
          rw [hz]
          simp only [hintAgainst, List.foldl_cons]
          rw [countUniqLenTwo_comm (ss.getD k []) s]

theorem cULOuter_error_iff (strs : List GoStr) (init : List Nat)
    (hlen : init.length = strs.length) :
    (∃ e, cULOuter strs init = .error e) ↔ ¬ NoPairConflict strs := by
  induction strs generalizing init with
  | nil =>
    unfold NoPairConflict
    simp only [cULOuter]
    constructor
    · rintro ⟨e, he⟩; cases he
    · intro h; exact absurd List.Pairwise.nil h
  | cons s ss ih =>
    cases init with
    | nil => simp at hlen
    | cons r rs =>
      simp only [List.length_cons, Nat.succ.injEq] at hlen
      unfold NoPairConflict
      rw [List.pairwise_cons]
      by_cases hc : ∃ t ∈ ss, uniqConflict s t = true
      · obtain ⟨e, he⟩ := cULInner_error_exists s ss r rs hlen hc
        constructor
        · intro _
          obtain ⟨t, ht, htc⟩ := hc
          intro ⟨hall, _⟩
          rw [hall t ht] at htc
          cases htc
        · intro _
          exact ⟨e, by simp [cULOuter, he]⟩
      · push_neg at hc
        have hok : ∀ t ∈ ss, uniqConflict s t = false := fun t ht => by
          have := hc t ht; revert this
          cases uniqConflict s t <;> simp
        have hinner := cULInner_ok s ss r rs hlen hok
        have hlen' : (rs.zipWith (fun r t => max r (countUniqLenTwo s t + 1)) ss).length
            = ss.length := by simp [List.length_zipWith, hlen]
        have hiff := ih (rs.zipWith (fun r t => max r (countUniqLenTwo s t + 1)) ss) hlen'
        unfold NoPairConflict at hiff
        constructor
        · rintro ⟨e, he⟩
          rcases hrec : cULOuter ss (rs.zipWith (fun r t => max r (countUniqLenTwo s t + 1)) ss)
            with e' | ret
          · have := hiff.mp ⟨e', hrec⟩
            intro ⟨_, hp⟩
            exact this hp
          · simp [cULOuter, hinner, hrec] at he
        · intro hnot
          have hss : ¬ List.Pairwise (fun a b => uniqConflict a b = false) ss := by
            intro hp
            exact hnot ⟨hok, hp⟩
          obtain ⟨e, he⟩ := hiff.mpr hss
          exact ⟨e, by simp [cULOuter, hinner, he]⟩

theorem cULOuter_error_mem (strs : List GoStr) (init : List Nat)
    (e : CountUniqLenError) (he : cULOuter strs init = .error e) :
    e.str1 ∈ strs ∧ e.str2 ∈ strs ∧ uniqConflict e.str1 e.str2 = true := by
  induction strs generalizing init with
  | nil => cases he
  | cons s ss ih =>
    cases init with
    | nil => cases he
    | cons r rs =>
      rcases hinner : cULInner s ss r rs with e' | p
      · simp only [cULOuter, hinner, Except.error.injEq] at he
        subst he
        obtain ⟨h1, h2, h3⟩ := cULInner_error_mem s ss r rs _ hinner
        exact ⟨by simp [h1], by simp [h2], h3⟩
      · obtain ⟨ri, rs'⟩ := p
        rcases hrec : cULOuter ss rs' with e'' | ret
        · simp only [cULOuter, hinner, hrec, Except.error.injEq] at he
          subst he
          obtain ⟨h1, h2, h3⟩ := ih _ hrec
          exact ⟨by simp [h1], by simp [h2], h3⟩
        · simp [cULOuter, hinner, hrec] at he

theorem uniqConflict_eq_true_iff (s t : GoStr) :
    uniqConflict s t = true ↔ (s = t ∨ t <+: s ∨ s <+: t) := by
  simp only [uniqConflict, Bool.or_eq_true, List.isPrefixOf_iff_prefix, beq_iff_eq]
  tauto

theorem uniqConflict_eq_false_iff (s t : GoStr) :
    uniqConflict s t = false ↔ ¬(s = t ∨ t <+: s ∨ s <+: t) := by
  rw [← uniqConflict_eq_true_iff]
  cases uniqConflict s t <;> simp

theorem noPairConflict_iff (strs : List GoStr) :
    NoPairConflict strs ↔
      ∀ i j (hi : i < strs.length) (hj : j < strs.length), i < j →
        ¬(strs[i] = strs[j] ∨ strs[i] <+: strs[j] ∨ strs[j] <+: strs[i]) := by
  unfold NoPairConflict
  rw [List.pairwise_iff_getElem]
  constructor
  · intro h i j hi hj hij
    have := h i j hi hj hij
    rw [uniqConflict_eq_false_iff] at this
    tauto
  · intro h i j hi hj hij
    rw [uniqConflict_eq_false_iff]
    have := h i j hi hj hij
    tauto

/-- **C1.** `countUniqLen` fails (with an error naming an offending pair of
strings from the list) exactly when two names are equal or one is a prefix of
the other; otherwise the returned list is aligned with the input and each
entry is the maximum, over all other indices `j`, of the longest-common-prefix
length (in code points) plus one — the empty fold giving `0` for a singleton
list. -/
theorem countUniqLen_spec (strs : List GoStr) :
    ((∃ e, countUniqLen strs = .error e) ↔
      ∃ i j, ∃ (hi : i < strs.length) (hj : j < strs.length), i < j ∧
        (strs[i] = strs[j] ∨ strs[i] <+: strs[j] ∨ strs[j] <+: strs[i])) ∧
    (∀ e, countUniqLen strs = .error e →
      e.str1 ∈ strs ∧ e.str2 ∈ strs ∧
        (e.str1 = e.str2 ∨ e.str2 <+: e.str1 ∨ e.str1 <+: e.str2)) ∧
    (∀ ret, countUniqLen strs = .ok ret →
      ret.length = strs.length ∧
      ∀ i (h : i < strs.length),
        ret.getD i 0 =
          (strs.eraseIdx i).foldl
            (fun a t => max a (countUniqLenTwo (strs[i]) t + 1)) 0) := by
  have hlen : (List.replicate strs.length 0).length = strs.length := by simp
  refine ⟨?_, ?_, ?_⟩
  · rw [show (∃ e, countUniqLen strs = .error e) ↔ ¬ NoPairConflict strs from
      cULOuter_error_iff strs _ hlen]
    rw [noPairConflict_iff]
    push_neg
    constructor
    · rintro ⟨i, j, hi, hj, hij, hcon⟩
      exact ⟨i, j, hi, hj, hij, hcon⟩
    · rintro ⟨i, j, hi, hj, hij, hcon⟩
      exact ⟨i, j, hi, hj, hij, hcon⟩
  · intro e he
    obtain ⟨h1, h2, h3⟩ := cULOuter_error_mem strs _ e he
    refine ⟨h1, h2, ?_⟩
    have := uniqConflict_eq_false_iff e.str1 e.str2
    rcases h : uniqConflict e.str1 e.str2 with _ | _
    · rw [h] at h3; cases h3
    · by_contra hno
      rw [← uniqConflict_eq_false_iff] at hno
      rw [hno] at h3
      cases h3
  · intro ret hret
    by_cases hok : NoPairConflict strs
    · obtain ⟨ret', hret', hlen', hval'⟩ := cULOuter_ok strs _ hlen hok
      rw [countUniqLen] at hret
      rw [hret'] at hret
      cases hret
      refine ⟨hlen', fun i h => ?_⟩
      have hv := hval' i h
      rw [List.getD_eq_getElem strs [] h] at hv
      rw [List.getD_eq_getElem (List.replicate strs.length 0) 0 (by simpa using h),
        List.getElem_replicate] at hv
      rw [hv]
      rfl
    · obtain ⟨e, he⟩ := (cULOuter_error_iff strs _ hlen).mpr hok
      rw [countUniqLen] at hret
      rw [he] at hret
      cases hret

/-- Closed witness for C1 at a concrete list: the hint for "ab" against
"ac" is the common-prefix length 1 plus one. -/
theorem countUniqLen_spec_witness :
    (["ab".toList, "ac".toList].eraseIdx 0).foldl
      (fun a t => max a (countUniqLenTwo "ab".toList t + 1)) 0 = 2 := by
  have h := (countUniqLen_spec ["ab".toList, "ac".toList]).2.2 [2, 2] rfl
  have h0 := h.2 0 (by decide)
  simpa using h0.symm

/-! ### The sticker catalog (`sticker/structs.go`, `sticker/manager.go`,
flat-namespace variant) -/

/-- One catalog entry (`sticker.Sticker`, flat variant): display name and
backing file path.  Go handles stickers through pointers; pointer equality is
modelled as value equality (in every state the claims touch, entries are
pairwise distinct values, since their paths differ). -/
structure Sticker where
  name : GoStr
  path : GoStr
deriving DecidableEq, Repr

instance : Inhabited Sticker := ⟨⟨[], []⟩⟩

/-- `Sticker.Ext()` is `filepath.Ext(s.path)`: the suffix beginning at the
final dot of the final path element; empty if there is none.  The auxiliary
walks the reversed path. -/
def goExtAux : List Char → List Char → GoStr
  | [], _ => []
  | c :: rest, seen =>
    if c = '/' then [] else if c = '.' then c :: seen else goExtAux rest (c :: seen)

/-- `filepath.Ext` (on a Linux-like platform, where the separator is `/`). -/
def goExt (p : GoStr) : GoStr := goExtAux p.reverse []

example : goExt "/r/a.png".toList = ".png".toList := by decide
example : goExt "/r/a".toList = [] := by decide

/-- `sticker.Manager` (flat variant).  The `sync.RWMutex` is not modelled:
every claim is about the sequential behaviour of one operation under the
caller-held lock. -/
structure Manager where
  root : GoStr
  stickers : List Sticker
  caseSensitive : Bool
deriving DecidableEq, Repr

/-- The inner `for _, p := range pg` loop of `MatchedStickers`: every pattern
of the group is a substring of the name. -/
def groupMatches (name : GoStr) (pg : List GoStr) : Bool :=
  pg.all (fun p => goContains name p)

/-- `Manager.MatchedStickers(patternGroups)` with its effects explicit: the
returned slice, the manager after the call (the body reads but never writes
the manager fields), and the contents of the caller's `patternGroups` after
the call.  The Go body filters out empty groups into `pgs` (whose elements
alias the caller's groups), returns all stickers when none remain, otherwise
— when the manager is case-insensitive — overwrites every pattern of every
non-empty group with its lowercase form in place, and finally filters the
sticker slice by "some group has all its patterns contained in the name". -/
def MatchedStickers (m : Manager) (patternGroups : List (List GoStr)) :
    List Sticker × Manager × List (List GoStr) :=
  let pgs := patternGroups.filter (fun pg => pg.length != 0)
  if pgs.length = 0 then (m.stickers, m, patternGroups)
  else
    let pgs := if !m.caseSensitive then pgs.map (fun pg => pg.map strToLower) else pgs
    let patternGroups :=
      if !m.caseSensitive then
        patternGroups.map (fun pg => if pg.length != 0 then pg.map strToLower else pg)
      else patternGroups
    let ret := m.stickers.filter (fun s => pgs.any (fun pg => groupMatches s.name pg))
    (ret, m, patternGroups)

/-- The slice `m.MatchedStickers(pgs)` evaluates to (the view `AddSticker`
and `RenameSticker` use, which pass fresh slices and only read the result). -/
def matchedList (m : Manager) (patternGroups : List (List GoStr)) : List Sticker :=
  (MatchedStickers m patternGroups).1

/-- `Manager.containedStickers(name)`: every sticker whose name is a
substring of the (case-folded) candidate name. -/
def containedStickers (m : Manager) (name : GoStr) : List Sticker :=
  let name := if !m.caseSensitive then strToLower name else name
  m.stickers.filter (fun s => goContains name s.name)

/-- The loop of Go's `sort.Find`: binary search on `[i, j)`, moving past a
midpoint while `cmp` is still positive there.  The iteration count is made
structural (the span `j - i` shrinks every pass, so `j - i` units of fuel
always suffice — `findLoopAux_fuel`/`findLoop_unfold` below recover the
original recursion), keeping the function kernel-computable. -/
def findLoopAux : Nat → (Nat → Int) → Nat → Nat → Nat
  | 0, _, i, _ => i
  | fuel + 1, cmp, i, j =>
    if i < j then
      if cmp ((i + j) / 2) > 0 then findLoopAux fuel cmp ((i + j) / 2 + 1) j
      else findLoopAux fuel cmp i ((i + j) / 2)
    else i

/-- The `sort.Find` loop proper. -/
def findLoop (cmp : Nat → Int) (i j : Nat) : Nat := findLoopAux (j - i) cmp i j

theorem findLoopAux_fuel (cmp : Nat → Int) :
    ∀ fuel fuel' i j, j - i ≤ fuel → j - i ≤ fuel' →
      findLoopAux fuel cmp i j = findLoopAux fuel' cmp i j := by
  intro fuel
  induction fuel with
  | zero =>
    intro fuel' i j h h'
    have hij : ¬ i < j := by omega
    cases fuel' with
    | zero => rfl
    | succ f' =>
      simp only [findLoopAux]
      rw [if_neg hij]
  | succ f ih =>
    intro fuel' i j h h'
    cases fuel' with
    | zero =>
      have hij : ¬ i < j := by omega
      simp only [findLoopAux]
      rw [if_neg hij]
    | succ f' =>
      simp only [findLoopAux]
      by_cases hij : i < j
      · rw [if_pos hij, if_pos hij]
        by_cases hc : cmp ((i + j) / 2) > 0
        · rw [if_pos hc, if_pos hc]
          exact ih f' _ _ (by omega) (by omega)
        · rw [if_neg hc, if_neg hc]
          exact ih f' _ _ (by omega) (by omega)
      · rw [if_neg hij, if_neg hij]

theorem findLoop_unfold (cmp : Nat → Int) (i j : Nat) :
    findLoop cmp i j =
      if i < j then
        if cmp ((i + j) / 2) > 0 then findLoop cmp ((i + j) / 2 + 1) j
        else findLoop cmp i ((i + j) / 2)
      else i := by
  unfold findLoop
  by_cases hij : i < j
  · rw [if_pos hij]
    rw [findLoopAux_fuel cmp (j - i) ((j - i - 1) + 1) i j (by omega) (by omega)]
    simp only [findLoopAux]
    rw [if_pos hij]
    by_cases hc : cmp ((i + j) / 2) > 0
    · rw [if_pos hc, if_pos hc]
      exact findLoopAux_fuel cmp _ _ _ _ (by omega) (by omega)
    · rw [if_neg hc, if_neg hc]
      exact findLoopAux_fuel cmp _ _ _ _ (by omega) (by omega)
  · rw [if_neg hij]
    have : j - i = 0 := by omega
    rw [this]
    rfl

/-- Go's `sort.Find(n, cmp)`: the insertion position and whether `cmp` is
zero there. -/
def sortFind (n : Nat) (cmp : Nat → Int) : Nat × Bool :=
  let i := findLoop cmp 0 n
  (i, decide (i < n) && decide (cmp i = 0))

/-- The comparison closure `insertSticker` passes to `sort.Find`:
`strings.Compare(s.Name(), m.stickers[i].Name())`.  (Go only ever calls it at
indices `< len`; `getD` gives the out-of-range indices a harmless default.) -/
def insCmp (l : List Sticker) (s : Sticker) (h : Nat) : Int :=
  strCompare s.name ((l.getD h default).name)

/-- `Manager.insertSticker`: binary-search the (assumed sorted) slice by
`strings.Compare` against the new name; skip (after a log) when an equal name
is found, otherwise shift and place the sticker at the found position. -/
def insertSticker (m : Manager) (s : Sticker) : Manager :=
  let fr := sortFind m.stickers.length (insCmp m.stickers s)
  if fr.2 then m
  else { m with stickers := m.stickers.take fr.1 ++ s :: m.stickers.drop fr.1 }

/-- Ordered insertion, the building block of the model of `sort.Sort`. -/
def insertSorted (s : Sticker) : List Sticker → List Sticker
  | [] => [s]
  | t :: ts => if strCompare s.name t.name ≤ 0 then s :: t :: ts else t :: insertSorted s ts

/-- `Manager.sortStickers` / `sort.Sort(stickerSliceSorter(...))`: Go's
`sort.Sort` is an unstable comparison sort over `Less(i,j) = name_i < name_j`;
it is modelled by insertion sort, which satisfies the same contract (a
permutation of the input, sorted by `≤` on names). -/
def sortStickers (l : List Sticker) : List Sticker := l.foldr insertSorted []

/-- The filesystem walk of `loadStickers`, abstracted: `none` models a failed
`filepath.WalkDir`, `some paths` the regular files it reports under the root
(in walk order; directories are only logged by the callback). -/
structure LoadWorld where
  walk : Option (List GoStr)

/-- The name derivation of `loadStickers` for one walked file path: strip the
root prefix and the extension, drop one leading separator, replace separators
by `-`, case-fold when configured.  (Linux-like platform: `filepath.Separator`
is `/`, `filepath.ToSlash` is the identity.) -/
def deriveName (root p : GoStr) (caseSensitive : Bool) : GoStr :=
  let ext := goExt p
  let name := (p.take (p.length - ext.length)).drop root.length
  let name := match name with
    | c :: rest => if c = '/' then rest else c :: rest
    | [] => []
  let name := name.map (fun c => if c = '/' then '-' else c)
  if !caseSensitive then strToLower name else name

example : deriveName "/r".toList "/r/sub/A.png".toList false = "sub-a".toList := by decide

/-- `Manager.loadStickers` after the walk: keep the paths with a non-empty
extension, derive a sticker per path, then run the collision loop — which
only LOGS containment (including exact equality) between derived names and
never fails — and finally store the sorted slice.  `none` models the error
return (possible only from the walk itself). -/
def loadStickers (root : GoStr) (caseSensitive : Bool) (w : LoadWorld) : Option Manager :=
  match w.walk with
  | none => none
  | some walked =>
    let paths := walked.filter (fun p => goExt p != [])
    let stickers := paths.map (fun p => Sticker.mk (deriveName root p caseSensitive) p)
    some { root := root, stickers := sortStickers stickers, caseSensitive := caseSensitive }

/-- `NewManager(root, opts...)`: build the manager (the `CaseSensitive`
option applied; `filepath.Clean` modelled as the identity, roots in all
claims being already clean) and load; any load failure aborts construction. -/
def NewManager (root : GoStr) (caseSensitive : Bool) (w : LoadWorld) : Option Manager :=
  loadStickers root caseSensitive w

/-! ### AddSticker / RenameSticker, with transport and filesystem explicit -/

/-- Error values of the mutating operations: `errors.New(...)` with a
human-readable message (user-correctable), or the `UninformableErr` sentinel
(`var UninformableErr = errors.New(...)`, compared by identity in Go, hence a
dedicated constructor here).  The dynamic suffixes of the messages (the
`StickerListString` renderings) are elided: no claim depends on message text,
only on the user/internal distinction and on which check fired. -/
inductive GoError where
  | user (msg : String)
  | uninformable
deriving DecidableEq, Repr

/-- `AddStickerSizeLimit`. -/
def AddStickerSizeLimit : Int := 3500000

/-- `strconv.Atoi`: optional sign, at least one digit, digits only, result
fitting a 64-bit `int`; `none` models a non-nil error. -/
def goAtoi (s : GoStr) : Option Int :=
  let sd : Bool × GoStr :=
    match s with
    | '+' :: rest => (false, rest)
    | '-' :: rest => (true, rest)
    | _ => (false, s)
  if sd.2.isEmpty || !sd.2.all Char.isDigit then none
  else
    let v : Int := sd.2.foldl (fun a c => a * 10 + (c.toNat - 48 : Nat)) 0
    let v := if sd.1 then -v else v
    if v < -(2 ^ 63) || v ≥ 2 ^ 63 then none else some v

example : goAtoi "3500001".toList = some 3500001 := by decide

/-- The files on disk, as the list of their paths. -/
abbrev FileSys := List GoStr

/-- `os.Create` (a pre-existing file would be truncated: same path set). -/
def fsCreate (fs : FileSys) (p : GoStr) : FileSys := if p ∈ fs then fs else p :: fs

/-- `os.Remove`. -/
def fsRemove (fs : FileSys) (p : GoStr) : FileSys := fs.erase p

/-- `os.Rename`. -/
def fsRename (fs : FileSys) (src dst : GoStr) : FileSys := fsCreate (fsRemove fs src) dst

/-- Outcome of the HTTP HEAD in `AddSticker`: `none` models a transport
error, otherwise the `Content-Type` and `Content-Length` header values. -/
structure HeadResp where
  contentType : GoStr
  contentLength : GoStr
deriving DecidableEq, Repr

/-- The external steps `AddSticker` performs, abstracted to their outcomes. -/
structure AddWorld where
  head : Option HeadResp
  getOk : Bool
  createOk : Bool
  copyOk : Bool
deriving DecidableEq, Repr

/-- `Manager.AddSticker(name, url)`.  Checks in source order: separator in
the name; existing names containing the name (`MatchedStickers`); existing
names contained in the name (`containedStickers`); HEAD failure; content
type; content length (`Atoi`, then the size ceiling); then the effectful
tail: GET, create, copy — each failure after the file exists removes it again
(the `defer os.Remove` rollback) and yields `UninformableErr` — and finally
the case-folded insertion into the index.  Returns (error, manager after,
filesystem after); `filepath.Join(root, name+"."+ext)` is modelled as
`root ++ "/" ++ name ++ "." ++ ext` (roots are clean). -/
def AddSticker (m : Manager) (fs : FileSys) (name _url : GoStr) (w : AddWorld) :
    Option GoError × Manager × FileSys :=
  if name.contains '/' then
    (some (.user "Invalid sticker name, filepath separator (/) or slash is included"), m, fs)
  else if matchedList m [[name]] ≠ [] then
    (some (.user "The name is contained by the following sticker(s): "), m, fs)
  else if containedStickers m name ≠ [] then
    (some (.user "The name contains the following sticker(s): "), m, fs)
  else
    match w.head with
    | none => (some (.user "Failed to download the image. Is it a valid URL?"), m, fs)
    | some resp =>
      if resp.contentType ≠ "image/png".toList ∧ resp.contentType ≠ "image/jpeg".toList ∧
          resp.contentType ≠ "image/gif".toList then
        (some (.user "Invalid URL content type. Only png, jpeg, and gif are supported."), m, fs)
      else
        match goAtoi resp.contentLength with
        | none => (some (.user "Invalid Content-Length from the URL. Is it a valid URL?"), m, fs)
        | some size =>
          if size > AddStickerSizeLimit then
            (some (.user "Image size too large."), m, fs)
          else if !w.getOk then (some .uninformable, m, fs)
          else
            let ext := resp.contentType.drop "image/".toList.length
            let path := m.root ++ '/' :: (name ++ '.' :: ext)
            if !w.createOk then (some .uninformable, m, fs)
            else if !w.copyOk then (some .uninformable, m, fsRemove (fsCreate fs path) path)
            else
              let name := if !m.caseSensitive then strToLower name else name
              (none, insertSticker m ⟨name, path⟩, fsCreate fs path)

/-- The one external step of `RenameSticker`, abstracted to its outcome. -/
structure RenameWorld where
  renameOk : Bool
deriving DecidableEq, Repr

/-- `Manager.RenameSticker(src, dst)`.  Checks in source order: the source
pattern must match exactly one sticker; no separator in `dst`; the stickers
matching `dst` must be none, or only the source sticker itself; the stickers
contained in `dst`, after dropping the source sticker (the trivial-conflict
carve-out, a first-occurrence removal), must be none.  Then `os.Rename`
(failure yields `UninformableErr`), the in-place update of the matched
sticker's name (case-folded) and path, and its removal (first occurrence, by
identity) and re-insertion in the sorted slice. -/
def RenameSticker (m : Manager) (fs : FileSys) (src dst : GoStr) (w : RenameWorld) :
    Option GoError × Manager × FileSys :=
  let srcMatched := matchedList m [[src]]
  if srcMatched.length < 1 then (some (.user "Sticker not found."), m, fs)
  else if srcMatched.length > 1 then
    (some (.user "Found more than one stickers. Matched: "), m, fs)
  else
    let orig := srcMatched.headD default
    if dst.contains '/' then
      (some (.user "Invalid dst path, filepath separator (/) or slash is included"), m, fs)
    else
      let dstMatched := matchedList m [[dst]]
      if dstMatched.length > 1 ∨ (dstMatched.length = 1 ∧ dstMatched.headD default ≠ orig) then
        (some (.user "The new name is contained by existing sticker(s): "), m, fs)
      else
        let ss := (containedStickers m dst).erase orig
        if ss ≠ [] then
          (some (.user "The name contains the following sticker(s): "), m, fs)
        else
          let srcPath := orig.path
          let dstPath := m.root ++ '/' :: (dst ++ goExt orig.path)
          if !w.renameOk then (some .uninformable, m, fs)
          else
            let dstName := if !m.caseSensitive then strToLower dst else dst
            let updated : Sticker := ⟨dstName, dstPath⟩
            let m' := { m with stickers := m.stickers.erase orig }
            (none, insertSticker m' updated, fsRename fs srcPath dstPath)

/-! ### Order lemmas for `strCompare` -/

theorem strCompare_eq_zero_iff : ∀ {a b : GoStr}, strCompare a b = 0 ↔ a = b := by
  intro a
  induction a with
  | nil => intro b; cases b <;> simp [strCompare]
  | cons x xs ih =>
    intro b
    cases b with
    | nil => simp [strCompare]
    | cons y ys =>
      simp only [strCompare]
      split_ifs with h1 h2
      · simp only [List.cons.injEq]
        constructor
        · intro h; norm_num at h
        · rintro ⟨rfl, -⟩; exact absurd h1 (lt_irrefl x)
      · simp only [List.cons.injEq]
        constructor
        · intro h; norm_num at h
        · rintro ⟨rfl, -⟩; exact absurd h2 (lt_irrefl x)
      · have hxy : x = y := le_antisymm (not_lt.mp h2) (not_lt.mp h1)
        subst hxy
        simp [ih]

theorem strCompare_neg : ∀ (a b : GoStr), strCompare a b = -strCompare b a := by
  intro a
  induction a with
  | nil => intro b; cases b <;> simp [strCompare]
  | cons x xs ih =>
    intro b
    cases b with
    | nil => simp [strCompare]
    | cons y ys =>
      simp only [strCompare]
      by_cases h1 : x < y
      · have h2 : ¬ y < x := lt_asymm h1
        norm_num [h1, h2]
      · by_cases h2 : y < x
        · norm_num [h1, h2]
        · simp [h1, h2, ih ys]

theorem strCompare_trans_le : ∀ {a b c : GoStr},
    strCompare a b ≤ 0 → strCompare b c ≤ 0 →
      strCompare a c ≤ 0 ∧
        ((strCompare a b < 0 ∨ strCompare b c < 0) → strCompare a c < 0) := by
  intro a
  induction a with
  | nil =>
    intro b c hab hbc
    cases b with
    | nil =>
      cases c <;> simp_all [strCompare]
    | cons y ys =>
      cases c with
      | nil => simp [strCompare] at hbc
      | cons z zs => simp [strCompare]
  | cons x xs ih =>
    intro b c hab hbc
    cases b with
    | nil => simp [strCompare] at hab
    | cons y ys =>
      cases c with
      | nil => simp [strCompare] at hbc
      | cons z zs =>
        simp only [strCompare] at hab hbc ⊢
        by_cases h1 : x < y
        · by_cases h3 : y < z
          · have hxz : x < z := lt_trans h1 h3
            norm_num [h1, hxz]
          · by_cases h4 : z < y
            · norm_num [h3, h4, lt_asymm h4] at hbc
            · have hyz : y = z := le_antisymm (not_lt.mp h4) (not_lt.mp h3)
              subst hyz
              norm_num [h1]
        · by_cases h2 : y < x
          · norm_num [h1, h2] at hab
          · have hxy : x = y := le_antisymm (not_lt.mp h2) (not_lt.mp h1)
            subst hxy
            by_cases h3 : x < z
            · norm_num [h3, lt_irrefl]
            · by_cases h4 : z < x
              · norm_num [h3, h4] at hbc
              · have hxz : x = z := le_antisymm (not_lt.mp h4) (not_lt.mp h3)
                subst hxz
                simp only [lt_irrefl, if_false] at hab hbc ⊢
                exact ih hab hbc

theorem strLe_trans {a b c : GoStr} (h1 : strLe a b) (h2 : strLe b c) : strLe a c :=
  (strCompare_trans_le h1 h2).1

theorem strLe_lt_trans {a b c : GoStr} (h1 : strLe a b) (h2 : strLt b c) : strLt a c :=
  (strCompare_trans_le h1 (le_of_lt h2)).2 (Or.inr h2)

theorem strLt_le_trans {a b c : GoStr} (h1 : strLt a b) (h2 : strLe b c) : strLt a c :=
  (strCompare_trans_le (le_of_lt h1) h2).2 (Or.inl h1)

theorem strLt_trans {a b c : GoStr} (h1 : strLt a b) (h2 : strLt b c) : strLt a c :=
  strLe_lt_trans (le_of_lt h1) h2

theorem strLt_of_not_ge {a b : GoStr} (h : ¬ strCompare a b > 0) : strLe a b := by
  unfold strLe; omega

theorem strLe_of_strLt {a b : GoStr} (h : strLt a b) : strLe a b := le_of_lt h

theorem strLt_irrefl (a : GoStr) : ¬ strLt a a := by
  have : strCompare a a = 0 := strCompare_eq_zero_iff.mpr rfl
  unfold strLt
  omega

theorem strCompare_pos_iff {a b : GoStr} : strCompare a b > 0 ↔ strLt b a := by
  unfold strLt
  rw [strCompare_neg a b]
  omega

/-! ### Substring and case-folding lemmas -/

theorem goContains_iff_substring {s sub : GoStr} : goContains s sub = true ↔ sub <:+: s := by
  induction s with
  | nil =>
    simp only [goContains, Bool.or_false]
    rw [List.isPrefixOf_iff_prefix]
    constructor
    · intro h
      exact h.isInfix
    · intro h
      exact (List.infix_iff_prefix_suffix.mp h).elim fun t ⟨h1, h2⟩ => by
        rw [List.suffix_nil.mp h2] at h1
        exact h1
  | cons c t ih =>
    have : goContains (c :: t) sub = (sub.isPrefixOf (c :: t) || goContains t sub) := rfl
    rw [this, List.infix_cons_iff]
    simp [List.isPrefixOf_iff_prefix, ih]

theorem toNat_ofNat_valid {n : Nat} (h : n.isValidChar) : (Char.ofNat n).toNat = n := by
  unfold Char.ofNat
  rw [dif_pos h]
  rfl

theorem toLower_ne_of_isUpper {c : Char} (h : c.isUpper = true) : c.toLower ≠ c := by
  intro he
  simp only [Char.isUpper, Bool.and_eq_true, decide_eq_true_eq] at h
  have hn : c.toNat ≥ 65 ∧ c.toNat ≤ 90 := ⟨h.1, h.2⟩
  have hvalid : (c.toNat + 32).isValidChar := by left; omega
  have hlow : (Char.toLower c).toNat = c.toNat + 32 := by
    unfold Char.toLower
    rw [if_pos ⟨hn.1, hn.2⟩]
    exact toNat_ofNat_valid hvalid
  rw [he] at hlow
  omega

/-! ### C2 / C10: MatchedStickers -/

/-- The match predicate of the claim wording: some non-empty group has all of
its patterns (case-folded as configured) contained in the stored name. -/
def claimMatches (m : Manager) (pgs : List (List GoStr)) (s : Sticker) : Prop :=
  ∃ pg ∈ pgs, pg ≠ [] ∧ ∀ p ∈ pg,
    (if m.caseSensitive then p else strToLower p) <:+: s.name

instance (m : Manager) (pgs : List (List GoStr)) (s : Sticker) :
    Decidable (claimMatches m pgs s) := by
  unfold claimMatches
  infer_instance

theorem matchedStickers_eq_filter (m : Manager) (pgs : List (List GoStr))
    (hne : ∃ pg ∈ pgs, pg ≠ []) :
    (MatchedStickers m pgs).1 =
      m.stickers.filter (fun s => decide (claimMatches m pgs s)) := by
  have hfil : (pgs.filter (fun pg => pg.length != 0)).length ≠ 0 := by
    obtain ⟨pg, hpg, hne'⟩ := hne
    have : pg ∈ pgs.filter (fun pg => pg.length != 0) := by
      rw [List.mem_filter]
      refine ⟨hpg, ?_⟩
      simpa [List.length_eq_zero] using hne'
    intro hlen
    rw [List.length_eq_zero] at hlen
    rw [hlen] at this
    cases this
  simp only [MatchedStickers]
  rw [if_neg hfil]
  apply List.filter_congr
  intro s _
  rw [Bool.eq_iff_iff]
  simp only [List.any_eq_true, decide_eq_true_eq]
  unfold claimMatches
  by_cases hcs : m.caseSensitive
  · simp only [hcs, Bool.not_true, if_true, Bool.false_eq_true, if_false]
    constructor
    · rintro ⟨pg, hpg, hmat⟩
      rw [List.mem_filter] at hpg
      refine ⟨pg, hpg.1, by simpa [List.length_eq_zero] using hpg.2, ?_⟩
      intro p hp
      rw [← goContains_iff_substring]
      have := hmat
      unfold groupMatches at this
      rw [List.all_eq_true] at this
      exact this p hp
    · rintro ⟨pg, hpg, hpgne, hall⟩
      refine ⟨pg, ?_, ?_⟩
      · rw [List.mem_filter]
        refine ⟨hpg, by simpa [List.length_eq_zero] using hpgne⟩
      · unfold groupMatches
        rw [List.all_eq_true]
        intro p hp
        rw [goContains_iff_substring]
        exact hall p hp
  · simp only [hcs, Bool.not_false, if_true, if_false]
    constructor
    · rintro ⟨pg', hpg', hmat⟩
      rw [List.mem_map] at hpg'
      obtain ⟨pg, hpg, rfl⟩ := hpg'
      rw [List.mem_filter] at hpg
      refine ⟨pg, hpg.1, by simpa [List.length_eq_zero] using hpg.2, ?_⟩
      intro p hp
      rw [← goContains_iff_substring]
      unfold groupMatches at hmat
      rw [List.all_eq_true] at hmat
      exact hmat (strToLower p) (List.mem_map_of_mem _ hp)
    · rintro ⟨pg, hpg, hpgne, hall⟩
      refine ⟨pg.map strToLower, ?_, ?_⟩
      · rw [List.mem_map]
        refine ⟨pg, ?_, rfl⟩
        rw [List.mem_filter]
        refine ⟨hpg, by simpa [List.length_eq_zero] using hpgne⟩
      · unfold groupMatches
        rw [List.all_eq_true]
        intro p hp
        rw [List.mem_map] at hp
        obtain ⟨p₀, hp₀, rfl⟩ := hp
        rw [goContains_iff_substring]
        exact hall p₀ hp₀

theorem matchedStickers_all_empty (m : Manager) (pgs : List (List GoStr))
    (hall : ∀ pg ∈ pgs, pg = []) : (MatchedStickers m pgs).1 = m.stickers := by
  have hfil : (pgs.filter (fun pg => pg.length != 0)).length = 0 := by
    rw [List.length_eq_zero, List.filter_eq_nil_iff]
    intro pg hpg
    simp [hall pg hpg]
  simp only [MatchedStickers]
  rw [if_pos hfil]

theorem matchedStickers_manager_unchanged (m : Manager) (pgs : List (List GoStr)) :
    (MatchedStickers m pgs).2.1 = m := by
  simp only [MatchedStickers]
  split_ifs <;> rfl

/-- **C2.** `MatchedStickers` leaves the manager untouched, returns a
sub-list of the catalog slice (hence in catalog order), returns every sticker
when no group or only empty groups are passed, and otherwise returns exactly
the stickers some non-empty group of which has all its patterns — lowercased
first when the manager is case-insensitive (the stored names are kept as
stored) — contained as substrings in the sticker's name. -/
theorem MatchedStickers_spec (m : Manager) (pgs : List (List GoStr)) :
    (MatchedStickers m pgs).2.1 = m ∧
    List.Sublist (MatchedStickers m pgs).1 m.stickers ∧
    ((∀ pg ∈ pgs, pg = []) → (MatchedStickers m pgs).1 = m.stickers) ∧
    ((∃ pg ∈ pgs, pg ≠ []) →
      (MatchedStickers m pgs).1 =
        m.stickers.filter (fun s => decide (claimMatches m pgs s))) := by
  refine ⟨matchedStickers_manager_unchanged m pgs, ?_,
    matchedStickers_all_empty m pgs, matchedStickers_eq_filter m pgs⟩
  by_cases h : ∃ pg ∈ pgs, pg ≠ []
  · rw [matchedStickers_eq_filter m pgs h]
    exact List.filter_sublist _
  · push_neg at h
    rw [matchedStickers_all_empty m pgs fun pg hpg => h pg hpg]

/-- Closed witness for C2 at a concrete catalog and query. -/
theorem MatchedStickers_spec_witness :
    let s1 : Sticker := ⟨"ab".toList, "/r/ab.png".toList⟩
    let s2 : Sticker := ⟨"cd".toList, "/r/cd.png".toList⟩
    let m : Manager := ⟨"/r".toList, [s1, s2], true⟩
    (MatchedStickers m [["a".toList], ["q".toList]]).1 = [s1] ∧
    (MatchedStickers m [[], []]).1 = [s1, s2] := by
  constructor
  · rw [(MatchedStickers_spec _ _).2.2.2 ⟨["a".toList], by simp, by simp⟩]
    rfl
  · rw [(MatchedStickers_spec _ _).2.2.1 (by simp)]

/-- **C10.**  For a case-insensitive manager, `MatchedStickers`
rewrites the caller's pattern groups: afterwards every pattern holds its
lowercase form (empty groups, being untouched and empty, are unchanged by
this description), so the argument differs from what was passed whenever any
pattern contained an ASCII uppercase character; the manager — in particular
its sticker list — is not modified. -/
theorem MatchedStickers_mutates_patterns (m : Manager) (pgs : List (List GoStr))
    (hci : m.caseSensitive = false) :
    (MatchedStickers m pgs).2.1 = m ∧
    (MatchedStickers m pgs).2.2 = pgs.map (fun pg => pg.map strToLower) ∧
    ((∃ pg ∈ pgs, ∃ p ∈ pg, ∃ c ∈ p, c.isUpper) →
      (MatchedStickers m pgs).2.2 ≠ pgs) := by
  have harg : (MatchedStickers m pgs).2.2 = pgs.map (fun pg => pg.map strToLower) := by
    by_cases hempty : (pgs.filter (fun pg => pg.length != 0)).length = 0
    · have hall : ∀ pg ∈ pgs, pg = [] := by
        rw [List.length_eq_zero, List.filter_eq_nil_iff] at hempty
        intro pg hpg
        simpa [List.length_eq_zero] using hempty pg hpg
      have hmap : pgs.map (fun pg => pg.map strToLower) = pgs := by
        conv_rhs => rw [← List.map_id pgs]
        apply List.map_congr_left
        intro pg hpg
        simp [hall pg hpg]
      simp only [MatchedStickers]
      rw [if_pos hempty, hmap]
    · simp only [MatchedStickers]
      rw [if_neg hempty]
      simp only [hci, Bool.not_false, eq_self_iff_true, if_true]
      apply List.map_congr_left
      intro pg _
      split_ifs with hlen
      · rfl
      · have hpg0 : pg = [] := by
          simpa [List.length_eq_zero] using hlen
        simp [hpg0]
  refine ⟨matchedStickers_manager_unchanged m pgs, harg, ?_⟩
  rintro ⟨pg, hpg, p, hp, c, hc, hcu⟩ heq
  rw [harg] at heq
  obtain ⟨i, hi, hgi⟩ := List.mem_iff_getElem.mp hpg
  have hrow : pgs[i].map (fun p => strToLower p) = pgs[i] := by
    have := congrArg (fun l => l.getD i []) heq
    simpa [List.getD_eq_getElem, hi, List.getElem_map] using this
  rw [hgi] at hrow
  obtain ⟨j, hj, hpj⟩ := List.mem_iff_getElem.mp hp
  have hpat : strToLower pg[j] = pg[j] := by
    have := congrArg (fun l => l.getD j []) hrow
    simpa [List.getD_eq_getElem, hj, List.getElem_map] using this
  rw [hpj] at hpat
  obtain ⟨kk, hk, hck⟩ := List.mem_iff_getElem.mp hc
  have hchar : Char.toLower p[kk] = p[kk] := by
    have := congrArg (fun l => l.getD kk 'x') hpat
    simpa [strToLower, List.getD_eq_getElem, hk, List.getElem_map] using this
  rw [hck] at hchar
  exact toLower_ne_of_isUpper hcu hchar

/-- Closed witness for C10 at a concrete catalog and query. -/
theorem MatchedStickers_mutates_patterns_witness :
    let m : Manager := ⟨"/r".toList, [⟨"ab".toList, "/r/ab.png".toList⟩], false⟩
    (MatchedStickers m [["AB".toList], []]).2.2 = [["ab".toList], []] ∧
    (MatchedStickers m [["AB".toList], []]).2.2 ≠ [["AB".toList], []] := by
  constructor
  · rw [(MatchedStickers_mutates_patterns _ _ rfl).2.1]
    rfl
  · exact (MatchedStickers_mutates_patterns _ [["AB".toList], []] rfl).2.2
      ⟨["AB".toList], by simp, "AB".toList, by simp, 'A', by simp, by decide⟩

/-! ### Binary search (`sort.Find`) and sorted insertion -/

theorem findLoop_bounds (cmp : Nat → Int) (i j : Nat) (hij : i ≤ j) :
    i ≤ findLoop cmp i j ∧ findLoop cmp i j ≤ j := by
  rw [findLoop_unfold]
  split_ifs with h1 h2
  · have := findLoop_bounds cmp ((i + j) / 2 + 1) j (by omega)
    omega
  · have := findLoop_bounds cmp i ((i + j) / 2) (by omega)
    omega
  · omega
termination_by j - i
decreasing_by
  · omega
  · omega

theorem findLoop_left (cmp : Nat → Int) (n : Nat)
    (hmono : ∀ a b, a ≤ b → b < n → cmp b > 0 → cmp a > 0)
    (i j : Nat) (hij : i ≤ j) (hj : j ≤ n) :
    ∀ k, i ≤ k → k < findLoop cmp i j → cmp k > 0 := by
  intro k hk1 hk2
  rw [findLoop_unfold] at hk2
  split_ifs at hk2 with h1 h2
  · by_cases hkm : (i + j) / 2 + 1 ≤ k
    · exact findLoop_left cmp n hmono ((i + j) / 2 + 1) j (by omega) hj k hkm hk2
    · exact hmono k ((i + j) / 2) (by omega) (by omega) h2
  · exact findLoop_left cmp n hmono i ((i + j) / 2) (by omega) (by omega) k hk1 hk2
  · omega
termination_by j - i
decreasing_by
  · omega
  · omega

theorem findLoop_right (cmp : Nat → Int) (n : Nat)
    (hmono : ∀ a b, a ≤ b → b < n → cmp b > 0 → cmp a > 0)
    (i j : Nat) (hij : i ≤ j) (hj : j ≤ n) :
    ∀ k, findLoop cmp i j ≤ k → k < j → cmp k ≤ 0 := by
  intro k hk1 hk2
  rw [findLoop_unfold] at hk1
  split_ifs at hk1 with h1 h2
  · exact findLoop_right cmp n hmono ((i + j) / 2 + 1) j (by omega) hj k hk1 hk2
  · by_cases hkm : k < (i + j) / 2
    · exact findLoop_right cmp n hmono i ((i + j) / 2) (by omega) (by omega) k hk1 hkm
    · by_contra hpos
      exact absurd (hmono ((i + j) / 2) k (by omega) (by omega) (by omega)) (by omega)
  · omega
termination_by j - i
decreasing_by
  · omega
  · omega

theorem insCmp_mono (l : List Sticker) (s : Sticker)
    (hsorted : List.Pairwise (fun a b => strLe a.name b.name) l) :
    ∀ a b, a ≤ b → b < l.length → insCmp l s b > 0 → insCmp l s a > 0 := by
  intro a b hab hb hpos
  unfold insCmp at hpos ⊢
  rw [List.getD_eq_getElem _ _ hb] at hpos
  rw [List.getD_eq_getElem _ _ (lt_of_le_of_lt hab hb)]
  rw [strCompare_pos_iff] at hpos ⊢
  rcases Nat.lt_or_ge a b with hlt | hge
  · have hle : strLe l[a].name l[b].name :=
      (List.pairwise_iff_getElem.mp hsorted) a b (by omega) hb hlt
    exact strLe_lt_trans hle hpos
  · have : a = b := by omega
    subst this
    exact hpos

/-- `insertSticker` on a list without the new name inserts exactly one entry
at the found position, regardless of sortedness. -/
theorem insertSticker_shape (m : Manager) (s : Sticker)
    (habs : ∀ t ∈ m.stickers, t.name ≠ s.name) :
    ∃ i, i ≤ m.stickers.length ∧
      (insertSticker m s).stickers =
        m.stickers.take i ++ s :: m.stickers.drop i ∧
      (insertSticker m s).root = m.root ∧
      (insertSticker m s).caseSensitive = m.caseSensitive := by
  have hbounds := findLoop_bounds (insCmp m.stickers s) 0 m.stickers.length (by omega)
  set r := findLoop (insCmp m.stickers s) 0 m.stickers.length with hr
  have hnotfound :
      (decide (r < m.stickers.length) && decide (insCmp m.stickers s r = 0)) = false := by
    rw [Bool.and_eq_false_iff]
    by_cases hrn : r < m.stickers.length
    · right
      rw [decide_eq_false_iff_not]
      unfold insCmp
      intro heq
      rw [List.getD_eq_getElem _ _ hrn] at heq
      rw [strCompare_eq_zero_iff] at heq
      exact habs _ (List.getElem_mem hrn) (by rw [heq])
    · left
      rw [decide_eq_false_iff_not]
      exact hrn
  refine ⟨r, hbounds.2, ?_, ?_, ?_⟩ <;>
    · unfold insertSticker sortFind
      simp only [← hr, hnotfound, Bool.false_eq_true, if_false]

/-- On a `≤`-sorted slice, the entries strictly before the found position are
strictly below the new name and the entries from it on are at or above it. -/
theorem insertSticker_bounds (m : Manager) (s : Sticker)
    (hsorted : List.Pairwise (fun a b => strLe a.name b.name) m.stickers) :
    (∀ k (hk : k < m.stickers.length),
      k < findLoop (insCmp m.stickers s) 0 m.stickers.length →
        strLt (m.stickers[k]).name s.name) ∧
    (∀ k (hk : k < m.stickers.length),
      findLoop (insCmp m.stickers s) 0 m.stickers.length ≤ k →
        strLe s.name (m.stickers[k]).name) := by
  have hmono := insCmp_mono m.stickers s hsorted
  constructor
  · intro k hk hklt
    have := findLoop_left (insCmp m.stickers s) m.stickers.length hmono 0
      m.stickers.length (by omega) (le_refl _) k (by omega) hklt
    unfold insCmp at this
    rw [List.getD_eq_getElem _ _ hk] at this
    exact strCompare_pos_iff.mp this
  · intro k hk hkge
    have := findLoop_right (insCmp m.stickers s) m.stickers.length hmono 0
      m.stickers.length (by omega) (le_refl _) k hkge hk
    unfold insCmp at this
    rw [List.getD_eq_getElem _ _ hk] at this
    exact this

theorem strLt_of_le_ne {a b : GoStr} (hle : strLe a b) (hne : a ≠ b) : strLt a b := by
  have : strCompare a b ≠ 0 := fun h => hne (strCompare_eq_zero_iff.mp h)
  unfold strLe at hle
  unfold strLt
  omega

theorem pairwise_insert_of_bounds (l : List Sticker) (s : Sticker) (r : Nat)
    (R : GoStr → GoStr → Prop)
    (hpair : List.Pairwise (fun a b => R a.name b.name) l)
    (hleft : ∀ k (hk : k < l.length), k < r → R (l[k]).name s.name)
    (hright : ∀ k (hk : k < l.length), r ≤ k → R s.name (l[k]).name) :
    List.Pairwise (fun a b => R a.name b.name) (l.take r ++ s :: l.drop r) := by
  rw [List.pairwise_append]
  refine ⟨List.Pairwise.sublist (List.take_sublist r l) hpair, ?_, ?_⟩
  · rw [List.pairwise_cons]
    refine ⟨?_, List.Pairwise.sublist (List.drop_sublist r l) hpair⟩
    intro b hb
    obtain ⟨k, hk, rfl⟩ := List.mem_iff_getElem.mp hb
    rw [List.getElem_drop]
    have hk' : r + k < l.length := by
      rw [List.length_drop] at hk
      omega
    exact hright (r + k) hk' (by omega)
  · intro a ha b hb
    obtain ⟨k, hk, rfl⟩ := List.mem_iff_getElem.mp ha
    rw [List.getElem_take]
    have hkr : k < r := by
      rw [List.length_take] at hk
      omega
    have hkl : k < l.length := by
      rw [List.length_take] at hk
      omega
    rcases List.mem_cons.mp hb with rfl | hb'
    · exact hleft k hkl hkr
    · obtain ⟨k2, hk2, rfl⟩ := List.mem_iff_getElem.mp hb'
      rw [List.getElem_drop]
      have hk2' : r + k2 < l.length := by
        rw [List.length_drop] at hk2
        omega
      exact (List.pairwise_iff_getElem.mp hpair) k (r + k2) hkl hk2' (by omega)

/-- `insertSticker` either finds an equal name and leaves the manager
untouched, or inserts at the binary-search position. -/
theorem insertSticker_cases (m : Manager) (s : Sticker) :
    insertSticker m s = m ∨
      (insertSticker m s =
        { m with stickers :=
          m.stickers.take (findLoop (insCmp m.stickers s) 0 m.stickers.length) ++
            s :: m.stickers.drop (findLoop (insCmp m.stickers s) 0 m.stickers.length) } ∧
       ¬ (findLoop (insCmp m.stickers s) 0 m.stickers.length < m.stickers.length ∧
          insCmp m.stickers s (findLoop (insCmp m.stickers s) 0 m.stickers.length) = 0)) := by
  unfold insertSticker sortFind
  simp only
  split_ifs with h
  · left; rfl
  · right
    refine ⟨rfl, ?_⟩
    intro ⟨h1, h2⟩
    rw [Bool.and_eq_true, decide_eq_true_eq, decide_eq_true_eq] at h
    exact h ⟨h1, h2⟩

/-- Inserting preserves `≤`-sortedness of the slice. -/
theorem insertSticker_sorted_le (m : Manager) (s : Sticker)
    (hsorted : List.Pairwise (fun a b => strLe a.name b.name) m.stickers) :
    List.Pairwise (fun a b => strLe a.name b.name) (insertSticker m s).stickers := by
  rcases insertSticker_cases m s with heq | ⟨heq, -⟩
  · rw [heq]; exact hsorted
  · rw [heq]
    have hb := insertSticker_bounds m s hsorted
    exact pairwise_insert_of_bounds m.stickers s _ strLe hsorted
      (fun k hk hkr => strLe_of_strLt (hb.1 k hk hkr))
      (fun k hk hkr => hb.2 k hk hkr)

/-- Inserting preserves strict sortedness (hence name uniqueness). -/
theorem insertSticker_sorted_lt (m : Manager) (s : Sticker)
    (hsorted : List.Pairwise (fun a b => strLt a.name b.name) m.stickers) :
    List.Pairwise (fun a b => strLt a.name b.name) (insertSticker m s).stickers := by
  have hle : List.Pairwise (fun a b => strLe a.name b.name) m.stickers :=
    hsorted.imp (fun h => strLe_of_strLt h)
  rcases insertSticker_cases m s with heq | ⟨heq, hnf⟩
  · rw [heq]; exact hsorted
  · rw [heq]
    have hb := insertSticker_bounds m s hle
    refine pairwise_insert_of_bounds m.stickers s _ strLt hsorted
      (fun k hk hkr => hb.1 k hk hkr) ?_
    intro k hk hkr
    set r := findLoop (insCmp m.stickers s) 0 m.stickers.length with hrdef
    have hle1 : strLe s.name (m.stickers[k]).name := hb.2 k hk hkr
    rcases Nat.eq_or_lt_of_le hkr with rfl | hklt
    · refine strLt_of_le_ne hle1 ?_
      intro heqname
      apply hnf
      refine ⟨hk, ?_⟩
      unfold insCmp
      rw [List.getD_eq_getElem _ _ hk, strCompare_eq_zero_iff]
      exact heqname
    · have hrn : r < m.stickers.length := by omega
      have hler : strLe s.name (m.stickers[r]).name := hb.2 r hrn (le_refl r)
      have hltrr : strLt (m.stickers[r]).name (m.stickers[k]).name :=
        (List.pairwise_iff_getElem.mp hsorted) r k hrn hk hklt
      exact strLe_lt_trans hler hltrr

/-! ### Evaluation lemmas for AddSticker -/

theorem contains_char_iff (l : GoStr) (c : Char) : l.contains c = true ↔ c ∈ l := by
  simp [List.contains, List.elem_iff]

/-- The effective pattern/name after the manager's case folding. -/
def effFold (m : Manager) (p : GoStr) : GoStr :=
  if m.caseSensitive then p else strToLower p

theorem matchedList_singleton (m : Manager) (p : GoStr) :
    matchedList m [[p]] =
      m.stickers.filter (fun s => goContains s.name (effFold m p)) := by
  unfold matchedList MatchedStickers effFold
  by_cases hcs : m.caseSensitive <;> simp [hcs, groupMatches]

theorem containedStickers_eq (m : Manager) (name : GoStr) :
    containedStickers m name =
      m.stickers.filter (fun s => goContains (effFold m name) s.name) := by
  unfold containedStickers effFold
  by_cases hcs : m.caseSensitive <;> simp [hcs]

/-- All user-input checks of `AddSticker` pass. -/
def addValidationsPass (m : Manager) (name : GoStr) (w : AddWorld) : Prop :=
  name.contains '/' = false ∧
  matchedList m [[name]] = [] ∧
  containedStickers m name = [] ∧
  ∃ resp, w.head = some resp ∧
    (resp.contentType = "image/png".toList ∨ resp.contentType = "image/jpeg".toList ∨
      resp.contentType = "image/gif".toList) ∧
    ∃ v, goAtoi resp.contentLength = some v ∧ v ≤ AddStickerSizeLimit

theorem AddSticker_eval (m : Manager) (fs : FileSys) (name url : GoStr) (w : AddWorld) :
    (¬ addValidationsPass m name w ∧
      ∃ msg, AddSticker m fs name url w = (some (.user msg), m, fs)) ∨
    (addValidationsPass m name w ∧
      ∃ resp, w.head = some resp ∧
        AddSticker m fs name url w =
          (if !w.getOk then (some .uninformable, m, fs)
           else if !w.createOk then (some .uninformable, m, fs)
           else if !w.copyOk then
             (some .uninformable, m,
              fsRemove (fsCreate fs (m.root ++ '/' :: (name ++ '.' :: resp.contentType.drop 6)))
                (m.root ++ '/' :: (name ++ '.' :: resp.contentType.drop 6)))
           else
             (none,
              insertSticker m
                ⟨if !m.caseSensitive then strToLower name else name,
                 m.root ++ '/' :: (name ++ '.' :: resp.contentType.drop 6)⟩,
              fsCreate fs (m.root ++ '/' :: (name ++ '.' :: resp.contentType.drop 6))))) := by
  by_cases hc1 : name.contains '/' = true
  · refine Or.inl ⟨?_, "Invalid sticker name, filepath separator (/) or slash is included", ?_⟩
    · intro hpass
      rw [hpass.1] at hc1
      cases hc1
    · simp only [AddSticker, hc1, if_true]
  · by_cases hc2 : matchedList m [[name]] = []
    · by_cases hc3 : containedStickers m name = []
      · rcases hh : w.head with _ | resp
        · refine Or.inl ⟨?_, "Failed to download the image. Is it a valid URL?", ?_⟩
          · rintro ⟨-, -, -, resp, hh', -⟩
            rw [hh] at hh'
            cases hh'
          · simp only [AddSticker, hh, if_neg hc1]
            rw [if_neg (fun hne => hne hc2), if_neg (fun hne => hne hc3)]
        · by_cases hct : resp.contentType ≠ "image/png".toList ∧
            resp.contentType ≠ "image/jpeg".toList ∧ resp.contentType ≠ "image/gif".toList
          · refine Or.inl
              ⟨?_, "Invalid URL content type. Only png, jpeg, and gif are supported.", ?_⟩
            · rintro ⟨-, -, -, resp', hh', hval, -⟩
              rw [hh] at hh'
              cases hh'
              tauto
            · simp only [AddSticker, hh, if_neg hc1]
              rw [if_neg (fun hne => hne hc2), if_neg (fun hne => hne hc3), if_pos hct]
          · have hct' : resp.contentType = "image/png".toList ∨
                resp.contentType = "image/jpeg".toList ∨
                resp.contentType = "image/gif".toList := by tauto
            rcases hatoi : goAtoi resp.contentLength with _ | v
            · refine Or.inl ⟨?_, "Invalid Content-Length from the URL. Is it a valid URL?", ?_⟩
              · rintro ⟨-, -, -, resp', hh', -, v, hatoi', -⟩
                rw [hh] at hh'
                cases hh'
                rw [hatoi] at hatoi'
                cases hatoi'
              · simp only [AddSticker, hh, if_neg hc1, hatoi]
                rw [if_neg (fun hne => hne hc2), if_neg (fun hne => hne hc3), if_neg hct]
            · by_cases hsize : v > AddStickerSizeLimit
              · refine Or.inl ⟨?_, "Image size too large.", ?_⟩
                · rintro ⟨-, -, -, resp', hh', -, v', hatoi', hle'⟩
                  rw [hh] at hh'
                  cases hh'
                  rw [hatoi] at hatoi'
                  cases hatoi'
                  omega
                · simp only [AddSticker, hh, if_neg hc1, hatoi]
                  rw [if_neg (fun hne => hne hc2), if_neg (fun hne => hne hc3), if_neg hct,
                    if_pos hsize]
              · have hc1f : name.contains '/' = false := by simpa using hc1
                have hpass : addValidationsPass m name w :=
                  ⟨hc1f, hc2, hc3, resp, hh, hct', v, hatoi, by omega⟩
                refine Or.inr ⟨hpass, resp, rfl, ?_⟩
                simp only [AddSticker, hh, if_neg hc1, hatoi]
                rw [if_neg (fun hne => hne hc2), if_neg (fun hne => hne hc3), if_neg hct,
                  if_neg hsize]
                rfl
      · refine Or.inl ⟨fun hpass => hc3 hpass.2.2.1,
          "The name contains the following sticker(s): ", ?_⟩
        simp only [AddSticker, if_neg hc1]
        rw [if_neg (fun hne => hne hc2), if_pos hc3]
    · refine Or.inl ⟨fun hpass => hc2 hpass.2.1,
        "The name is contained by the following sticker(s): ", ?_⟩
      simp only [AddSticker, if_neg hc1]
      rw [if_pos hc2]

/-! ### Evaluation lemma for RenameSticker -/

/-- All user-input checks of `RenameSticker` pass. -/
def renameValidationsPass (m : Manager) (src dst : GoStr) : Prop :=
  (matchedList m [[src]]).length = 1 ∧
  dst.contains '/' = false ∧
  ¬((matchedList m [[dst]]).length > 1 ∨
    ((matchedList m [[dst]]).length = 1 ∧
      (matchedList m [[dst]]).headD default ≠ (matchedList m [[src]]).headD default)) ∧
  (containedStickers m dst).erase ((matchedList m [[src]]).headD default) = []

theorem RenameSticker_eval (m : Manager) (fs : FileSys) (src dst : GoStr) (w : RenameWorld) :
    (¬ renameValidationsPass m src dst ∧
      ∃ msg, RenameSticker m fs src dst w = (some (.user msg), m, fs)) ∨
    (renameValidationsPass m src dst ∧
      RenameSticker m fs src dst w =
        (if !w.renameOk then (some .uninformable, m, fs)
         else
           (none,
            insertSticker
              { m with stickers :=
                  m.stickers.erase ((matchedList m [[src]]).headD default) }
              ⟨if !m.caseSensitive then strToLower dst else dst,
               m.root ++ '/' ::
                 (dst ++ goExt ((matchedList m [[src]]).headD default).path)⟩,
            fsRename fs ((matchedList m [[src]]).headD default).path
              (m.root ++ '/' ::
                (dst ++ goExt ((matchedList m [[src]]).headD default).path))))) := by
  by_cases hl1 : (matchedList m [[src]]).length < 1
  · refine Or.inl ⟨?_, "Sticker not found.", ?_⟩
    · intro hpass
      have := hpass.1
      omega
    · simp only [RenameSticker]
      rw [if_pos hl1]
  · by_cases hl2 : (matchedList m [[src]]).length > 1
    · refine Or.inl ⟨?_, "Found more than one stickers. Matched: ", ?_⟩
      · intro hpass
        have := hpass.1
        omega
      · simp only [RenameSticker]
        rw [if_neg hl1, if_pos hl2]
    · by_cases hds : dst.contains '/' = true
      · refine Or.inl ⟨?_, "Invalid dst path, filepath separator (/) or slash is included", ?_⟩
        · intro hpass
          rw [hpass.2.1] at hds
          cases hds
        · simp only [RenameSticker]
          rw [if_neg hl1, if_neg hl2, if_pos hds]
      · by_cases hdm : (matchedList m [[dst]]).length > 1 ∨
          ((matchedList m [[dst]]).length = 1 ∧
            (matchedList m [[dst]]).headD default ≠ (matchedList m [[src]]).headD default)
        · refine Or.inl ⟨?_, "The new name is contained by existing sticker(s): ", ?_⟩
          · intro hpass
            exact hpass.2.2.1 hdm
          · simp only [RenameSticker]
            rw [if_neg hl1, if_neg hl2, if_neg hds, if_pos hdm]
        · by_cases hcont :
            (containedStickers m dst).erase ((matchedList m [[src]]).headD default) = []
          · have hpass : renameValidationsPass m src dst := ⟨by omega, by simpa using hds,
              hdm, hcont⟩
            refine Or.inr ⟨hpass, ?_⟩
            simp only [RenameSticker]
            rw [if_neg hl1, if_neg hl2, if_neg hds, if_neg hdm,
              if_neg (fun hne => hne hcont)]
          · refine Or.inl ⟨?_, "The name contains the following sticker(s): ", ?_⟩
            · intro hpass
              exact hcont hpass.2.2.2
            · simp only [RenameSticker]
              rw [if_neg hl1, if_neg hl2, if_neg hds, if_neg hdm, if_pos hcont]

/-! ### C3: AddSticker validation and rollback -/

theorem effFold_eq_code (m : Manager) (p : GoStr) :
    (if !m.caseSensitive then strToLower p else p) = effFold m p := by
  unfold effFold
  cases h : m.caseSensitive <;> simp

/-- **C3.** `AddSticker` returns a user-correctable (`.user`) error and
leaves catalog and filesystem untouched whenever: the name contains a
slash/path separator; the (case-folded) name is a substring of an existing
sticker name; an existing sticker name is a substring of the (case-folded)
name; the HEAD Content-Type is none of `image/png`, `image/jpeg`,
`image/gif`; or the parsed Content-Length exceeds 3,500,000.  On success
(`nil` error) exactly one new entry, carrying the case-folded name, is
spliced into the index with all other entries undisturbed. -/
theorem AddSticker_spec (m : Manager) (fs : FileSys) (name url : GoStr) (w : AddWorld) :
    (('/' ∈ name ∨
      (∃ s ∈ m.stickers, effFold m name <:+: s.name) ∨
      (∃ s ∈ m.stickers, s.name <:+: effFold m name) ∨
      (∃ resp, w.head = some resp ∧ resp.contentType ≠ "image/png".toList ∧
        resp.contentType ≠ "image/jpeg".toList ∧ resp.contentType ≠ "image/gif".toList) ∨
      (∃ resp v, w.head = some resp ∧ goAtoi resp.contentLength = some v ∧
        v > AddStickerSizeLimit)) →
      ((∃ msg, (AddSticker m fs name url w).1 = some (GoError.user msg)) ∧
       (AddSticker m fs name url w).2.1 = m ∧
       (AddSticker m fs name url w).2.2 = fs)) ∧
    ((AddSticker m fs name url w).1 = none →
      ∃ i path, i ≤ m.stickers.length ∧
        (AddSticker m fs name url w).2.1.stickers =
          m.stickers.take i ++ Sticker.mk (effFold m name) path :: m.stickers.drop i) := by
  rcases AddSticker_eval m fs name url w with ⟨hnp, msg, heq⟩ | ⟨hpass, resp, hh, heq⟩
  · constructor
    · intro _
      rw [heq]
      exact ⟨⟨msg, rfl⟩, rfl, rfl⟩
    · intro hres
      rw [heq] at hres
      cases hres
  · obtain ⟨hc1f, hc2, hc3, resp', hh', hval, v, hatoi, hle⟩ := hpass
    constructor
    · intro hcond
      exfalso
      rcases hcond with h | h | h | h | h
      · rw [← contains_char_iff, hc1f] at h
        cases h
      · obtain ⟨s, hs, hinf⟩ := h
        rw [matchedList_singleton, List.filter_eq_nil_iff] at hc2
        exact hc2 s hs (goContains_iff_substring.mpr hinf)
      · obtain ⟨s, hs, hinf⟩ := h
        rw [containedStickers_eq, List.filter_eq_nil_iff] at hc3
        exact hc3 s hs (goContains_iff_substring.mpr hinf)
      · obtain ⟨resp2, hh2, hb1, hb2, hb3⟩ := h
        rw [hh'] at hh2
        cases hh2
        tauto
      · obtain ⟨resp2, v2, hh2, hatoi2, hgt⟩ := h
        rw [hh'] at hh2
        cases hh2
        rw [hatoi] at hatoi2
        cases hatoi2
        omega
    · intro hres
      rw [heq] at hres
      rcases hget : w.getOk with _ | _
      · rw [hget] at hres
        simp at hres
      · rcases hcreate : w.createOk with _ | _
        · rw [hget, hcreate] at hres
          simp at hres
        · rcases hcopy : w.copyOk with _ | _
          · rw [hget, hcreate, hcopy] at hres
            simp at hres
          · rw [heq]
            simp only [hget, hcreate, hcopy, Bool.not_true, Bool.false_eq_true, if_false]
            have habs : ∀ t ∈ m.stickers,
                t.name ≠ (if !m.caseSensitive then strToLower name else name) := by
              intro t ht hteq
              rw [matchedList_singleton, List.filter_eq_nil_iff] at hc2
              apply hc2 t ht
              rw [hteq, effFold_eq_code]
              exact goContains_iff_substring.mpr List.infix_rfl
            obtain ⟨i, hi, hshape, -, -⟩ := insertSticker_shape m
              ⟨if !m.caseSensitive then strToLower name else name,
               m.root ++ '/' :: (name ++ '.' :: resp.contentType.drop 6)⟩ habs
            refine ⟨i, m.root ++ '/' :: (name ++ '.' :: resp.contentType.drop 6), hi, ?_⟩
            rw [← effFold_eq_code]
            exact hshape

/-- Closed witness for C3: a name containing a slash is rejected with a user
error and neither catalog nor filesystem change. -/
theorem AddSticker_spec_witness :
    let m : Manager := ⟨"/r".toList, [⟨"cat".toList, "/r/cat.png".toList⟩], true⟩
    let w : AddWorld := ⟨some ⟨"image/png".toList, "17".toList⟩, true, true, true⟩
    (∃ msg, (AddSticker m ["/r/cat.png".toList] "a/b".toList "u".toList w).1 =
      some (GoError.user msg)) ∧
    (AddSticker m ["/r/cat.png".toList] "a/b".toList "u".toList w).2.1 = m ∧
    (AddSticker m ["/r/cat.png".toList] "a/b".toList "u".toList w).2.2 =
      ["/r/cat.png".toList] :=
  (AddSticker_spec _ _ _ _ _).1 (Or.inl (by decide))

/-! ### C8: the opaque internal-error sentinel -/

/-- **C8.** `AddSticker` returns the `UninformableErr` sentinel exactly for
the internal failures after validation — transport failure of the GET
fetching the source bytes, file-creation failure, and copy failure — and
`RenameSticker` exactly for an `os.Rename` failure after validation; the
sentinel is distinct from every descriptive user error (the HEAD probe
failure is reported as a user-correctable "is it a valid URL?" error, before
any bytes are fetched). -/
theorem uninformable_iff_internal (m : Manager) (fs : FileSys) (name url src dst : GoStr)
    (wa : AddWorld) (wr : RenameWorld) :
    ((AddSticker m fs name url wa).1 = some GoError.uninformable ↔
      addValidationsPass m name wa ∧
        (wa.getOk = false ∨ wa.createOk = false ∨ wa.copyOk = false)) ∧
    ((RenameSticker m fs src dst wr).1 = some GoError.uninformable ↔
      renameValidationsPass m src dst ∧ wr.renameOk = false) ∧
    (∀ msg, GoError.user msg ≠ GoError.uninformable) := by
  refine ⟨?_, ?_, fun msg h => by cases h⟩
  · rcases AddSticker_eval m fs name url wa with ⟨hnp, msg, heq⟩ | ⟨hpass, resp, hh, heq⟩
    · rw [heq]
      simp only [Prod.fst]
      constructor
      · intro h
        cases h
      · rintro ⟨hp, -⟩
        exact absurd hp hnp
    · rw [heq]
      rcases hget : wa.getOk with _ | _
      · simp [hget, hpass]
      · rcases hcreate : wa.createOk with _ | _
        · simp [hget, hcreate, hpass]
        · rcases hcopy : wa.copyOk with _ | _
          · simp [hget, hcreate, hcopy, hpass]
          · simp [hget, hcreate, hcopy, hpass]
  · rcases RenameSticker_eval m fs src dst wr with ⟨hnp, msg, heq⟩ | ⟨hpass, heq⟩
    · rw [heq]
      simp only [Prod.fst]
      constructor
      · intro h
        cases h
      · rintro ⟨hp, -⟩
        exact absurd hp hnp
    · rw [heq]
      rcases hrn : wr.renameOk with _ | _
      · simp [hrn, hpass]
      · simp [hrn, hpass]

/-- Closed witness for C8: with validations passing and the GET failing,
`AddSticker` reports the sentinel; a failing `os.Rename` after a valid
rename request does the same. -/
theorem uninformable_iff_internal_witness :
    let m : Manager := ⟨"/r".toList, [⟨"cat".toList, "/r/cat.png".toList⟩], true⟩
    let wa : AddWorld := ⟨some ⟨"image/png".toList, "17".toList⟩, false, true, true⟩
    (AddSticker m ["/r/cat.png".toList] "dog".toList "u".toList wa).1 =
      some GoError.uninformable ∧
    (RenameSticker m ["/r/cat.png".toList] "cat".toList "dog".toList ⟨false⟩).1 =
      some GoError.uninformable := by
  constructor
  · exact (uninformable_iff_internal _ _ _ _ "cat".toList "dog".toList _ ⟨false⟩).1.mpr
      ⟨⟨by decide, by decide, by decide, ⟨"image/png".toList, "17".toList⟩, rfl, Or.inl rfl,
        17, by decide, by decide⟩, Or.inl rfl⟩
  · exact (uninformable_iff_internal _ _ "dog".toList "u".toList _ _
      ⟨some ⟨"image/png".toList, "17".toList⟩, false, true, true⟩ _).2.1.mpr
      ⟨⟨by decide, by decide, by decide, by decide⟩, rfl⟩

/-! ### Sorting lemmas for `sortStickers`, and C6 / C7 -/

theorem insertSorted_perm (s : Sticker) (l : List Sticker) :
    (insertSorted s l).Perm (s :: l) := by
  induction l with
  | nil => exact List.Perm.refl _
  | cons t ts ih =>
    unfold insertSorted
    split_ifs with h
    · exact List.Perm.refl _
    · exact List.Perm.trans (List.Perm.cons t ih) (List.Perm.swap s t ts)

theorem insertSorted_sorted (s : Sticker) (l : List Sticker)
    (hs : List.Pairwise (fun a b => strLe a.name b.name) l) :
    List.Pairwise (fun a b => strLe a.name b.name) (insertSorted s l) := by
  induction l with
  | nil => simp [insertSorted]
  | cons t ts ih =>
    rw [List.pairwise_cons] at hs
    unfold insertSorted
    split_ifs with h
    · rw [List.pairwise_cons]
      refine ⟨?_, List.pairwise_cons.mpr hs⟩
      intro b hb
      rcases List.mem_cons.mp hb with rfl | hb'
      · exact h
      · exact strLe_trans h (hs.1 b hb')
    · rw [List.pairwise_cons]
      refine ⟨?_, ih hs.2⟩
      intro b hb
      have hperm := insertSorted_perm s ts
      have hb' := hperm.mem_iff.mp hb
      rcases List.mem_cons.mp hb' with rfl | hb''
      · have : strCompare b.name t.name > 0 := by omega
        exact strLe_of_strLt (strCompare_pos_iff.mp this)
      · exact hs.1 b hb''

theorem sortStickers_perm (l : List Sticker) : (sortStickers l).Perm l := by
  induction l with
  | nil => exact List.Perm.refl _
  | cons t ts ih =>
    unfold sortStickers at ih ⊢
    rw [List.foldr_cons]
    exact List.Perm.trans (insertSorted_perm t (ts.foldr insertSorted []))
      (List.Perm.cons t ih)

theorem sortStickers_sorted (l : List Sticker) :
    List.Pairwise (fun a b => strLe a.name b.name) (sortStickers l) := by
  induction l with
  | nil => exact List.Pairwise.nil
  | cons t ts ih =>
    unfold sortStickers at ih ⊢
    rw [List.foldr_cons]
    exact insertSorted_sorted t _ ih

/-- **C7 counterexample.**  Two files whose derived catalog names collide
exactly (`/r/a.png` and `/r/a.gif` both derive the name `a`) do NOT abort
initialization: `NewManager` comes up, holding both colliding entries —
`loadStickers` only logs containment between derived names. -/
theorem NewManager_collision_not_fatal :
    (NewManager "/r".toList true ⟨some ["/r/a.png".toList, "/r/a.gif".toList]⟩).isSome
      = true ∧
    ((NewManager "/r".toList true
        ⟨some ["/r/a.png".toList, "/r/a.gif".toList]⟩).getD
          ⟨[], [], true⟩).stickers.map Sticker.name =
      ["a".toList, "a".toList] := by
  constructor
  · rfl
  · rfl

/-- **C7** (amended).  After a successful directory walk, `loadStickers`
never fails: exact name collisions are merely logged, and the manager comes
up with a name-sorted permutation of every derived entry (collisions
included); the only initialization error comes from the walk itself. -/
theorem NewManager_spec (root : GoStr) (cs : Bool) (w : LoadWorld) :
    (NewManager root cs w = none ↔ w.walk = none) ∧
    (∀ paths, w.walk = some paths →
      ∃ m, NewManager root cs w = some m ∧
        m.root = root ∧ m.caseSensitive = cs ∧
        m.stickers.Perm
          ((paths.filter (fun p => goExt p != [])).map
            (fun p => Sticker.mk (deriveName root p cs) p)) ∧
        List.Pairwise (fun a b => strLe a.name b.name) m.stickers) := by
  constructor
  · rcases hw : w.walk with _ | paths
    · simp [NewManager, loadStickers, hw]
    · simp [NewManager, loadStickers, hw]
  · intro paths hw
    refine ⟨{ root := root,
              stickers := sortStickers
                ((paths.filter (fun p => goExt p != [])).map
                  (fun p => Sticker.mk (deriveName root p cs) p)),
              caseSensitive := cs }, ?_, rfl, rfl, ?_, ?_⟩
    · simp [NewManager, loadStickers, hw]
    · exact sortStickers_perm _
    · exact sortStickers_sorted _

/-- Closed witness for the amended C7 at a one-file walk. -/
theorem NewManager_spec_witness :
    ∃ m, NewManager "/r".toList true ⟨some ["/r/b.png".toList]⟩ = some m ∧
      m.root = "/r".toList ∧ m.caseSensitive = true ∧
      m.stickers.Perm [Sticker.mk "b".toList "/r/b.png".toList] ∧
      List.Pairwise (fun a b => strLe a.name b.name) m.stickers := by
  obtain ⟨m, h1, h2, h3, h4, h5⟩ :=
    (NewManager_spec "/r".toList true ⟨some ["/r/b.png".toList]⟩).2
      ["/r/b.png".toList] rfl
  have heval : ((["/r/b.png".toList].filter (fun p => goExt p != [])).map
      (fun p => Sticker.mk (deriveName "/r".toList p true) p)) =
      [Sticker.mk "b".toList "/r/b.png".toList] := by decide
  rw [heval] at h4
  exact ⟨m, h1, h2, h3, h4, h5⟩

/-- **C6 counterexample.**  Right after a successful `NewManager` on two
colliding files, the catalog holds two entries with EQUAL names: the
uniqueness half of the claimed invariant fails at the base case (`load` does
not deduplicate, it only logs). -/
theorem catalog_uniqueness_counterexample :
    (NewManager "/q".toList true ⟨some ["/q/b.png".toList, "/q/b.gif".toList]⟩).isSome
      = true ∧
    ¬ ((NewManager "/q".toList true
        ⟨some ["/q/b.png".toList, "/q/b.gif".toList]⟩).getD
          ⟨[], [], true⟩).stickers.Pairwise (fun a b => a.name ≠ b.name) := by
  constructor
  · rfl
  · intro h
    rw [List.pairwise_iff_getElem] at h
    exact h 0 1 (by decide) (by decide) (by decide) rfl

/-- **C6** (amended).  Every reachable state is sorted by byte-wise `≤` on
names: `NewManager` establishes it (possibly with equal adjacent names when
derived names collide), and `AddSticker` and `RenameSticker` preserve it;
strict sortedness — which is exactly sortedness plus the no-equal-names
uniqueness — is preserved by `AddSticker` and `RenameSticker` whenever it
already holds, but is NOT established by `NewManager` in general. -/
theorem catalog_sorted_invariant :
    (∀ root cs w m, NewManager root cs w = some m →
      List.Pairwise (fun a b => strLe a.name b.name) m.stickers) ∧
    (∀ m fs name url w,
      (List.Pairwise (fun a b => strLe a.name b.name) m.stickers →
        List.Pairwise (fun a b => strLe a.name b.name)
          (AddSticker m fs name url w).2.1.stickers) ∧
      (List.Pairwise (fun a b => strLt a.name b.name) m.stickers →
        List.Pairwise (fun a b => strLt a.name b.name)
          (AddSticker m fs name url w).2.1.stickers)) ∧
    (∀ m fs src dst w,
      (List.Pairwise (fun a b => strLe a.name b.name) m.stickers →
        List.Pairwise (fun a b => strLe a.name b.name)
          (RenameSticker m fs src dst w).2.1.stickers) ∧
      (List.Pairwise (fun a b => strLt a.name b.name) m.stickers →
        List.Pairwise (fun a b => strLt a.name b.name)
          (RenameSticker m fs src dst w).2.1.stickers)) := by
  refine ⟨?_, ?_, ?_⟩
  · intro root cs w m hm
    rcases hw : w.walk with _ | paths
    · simp [NewManager, loadStickers, hw] at hm
    · simp only [NewManager, loadStickers, hw] at hm
      cases hm
      exact sortStickers_sorted _
  · intro m fs name url w
    rcases AddSticker_eval m fs name url w with ⟨-, msg, heq⟩ | ⟨-, resp, hh, heq⟩
    · rw [heq]
      exact ⟨id, id⟩
    · rw [heq]
      rcases w.getOk with _ | _
      · exact ⟨id, id⟩
      · rcases w.createOk with _ | _
        · exact ⟨id, id⟩
        · rcases w.copyOk with _ | _
          · exact ⟨id, id⟩
          · simp only [Bool.not_true, Bool.false_eq_true, if_false]
            exact ⟨fun hs => insertSticker_sorted_le m _ hs,
              fun hs => insertSticker_sorted_lt m _ hs⟩
  · intro m fs src dst w
    rcases RenameSticker_eval m fs src dst w with ⟨-, msg, heq⟩ | ⟨-, heq⟩
    · rw [heq]
      exact ⟨id, id⟩
    · rw [heq]
      rcases w.renameOk with _ | _
      · exact ⟨id, id⟩
      · simp only [Bool.not_true, Bool.false_eq_true, if_false]
        constructor
        · intro hs
          exact insertSticker_sorted_le _ _
            (List.Pairwise.sublist (List.erase_sublist _ _) hs)
        · intro hs
          exact insertSticker_sorted_lt _ _
            (List.Pairwise.sublist (List.erase_sublist _ _) hs)

/-- Closed witness for the amended C6 at a concrete load and add. -/
theorem catalog_sorted_invariant_witness :
    List.Pairwise (fun a b => strLe a.name b.name)
      ((NewManager "/q".toList true
        ⟨some ["/q/b.png".toList, "/q/b.gif".toList]⟩).getD ⟨[], [], true⟩).stickers ∧
    List.Pairwise (fun a b => strLt a.name b.name)
      (AddSticker ⟨"/r".toList, [⟨"cat".toList, "/r/cat.png".toList⟩], true⟩
        ["/r/cat.png".toList] "dog".toList "u".toList
        ⟨some ⟨"image/png".toList, "17".toList⟩, true, true, true⟩).2.1.stickers := by
  constructor
  · exact (catalog_sorted_invariant.1 "/q".toList true
      ⟨some ["/q/b.png".toList, "/q/b.gif".toList]⟩ _ rfl)
  · exact (catalog_sorted_invariant.2.1
      ⟨"/r".toList, [⟨"cat".toList, "/r/cat.png".toList⟩], true⟩
      ["/r/cat.png".toList] "dog".toList "u".toList
      ⟨some ⟨"image/png".toList, "17".toList⟩, true, true, true⟩).2 (by decide)

/-! ### C4: RenameSticker post-conditions -/

/-- **C4 counterexample.**  Renaming the only sticker `cat` to `catx` is a
valid rename (the only containment conflict is the renamed entry itself,
allowed by the trivial-case carve-out) and succeeds — yet a query for the old
name `cat` afterwards returns ONE match (`catx` contains `cat`), not zero. -/
theorem rename_old_name_counterexample :
    (RenameSticker ⟨"/r".toList, [⟨"cat".toList, "/r/cat.png".toList⟩], true⟩
      ["/r/cat.png".toList] "cat".toList "catx".toList ⟨true⟩).1 = none ∧
    (matchedList
      (RenameSticker ⟨"/r".toList, [⟨"cat".toList, "/r/cat.png".toList⟩], true⟩
        ["/r/cat.png".toList] "cat".toList "catx".toList ⟨true⟩).2.1
      [["cat".toList]]).length = 1 := by
  constructor
  · decide
  · decide

theorem toLower_idem (c : Char) : c.toLower.toLower = c.toLower := by
  unfold Char.toLower
  by_cases h : c.toNat ≥ 65 ∧ c.toNat ≤ 90
  · rw [if_pos h]
    have hv : (c.toNat + 32).isValidChar := by
      left
      omega
    have ht : (Char.ofNat (c.toNat + 32)).toNat = c.toNat + 32 := toNat_ofNat_valid hv
    rw [if_neg (by omega : ¬ ((Char.ofNat (c.toNat + 32)).toNat ≥ 65 ∧
      (Char.ofNat (c.toNat + 32)).toNat ≤ 90))]
  · rw [if_neg h, if_neg h]

theorem strToLower_idem (s : GoStr) : strToLower (strToLower s) = strToLower s := by
  unfold strToLower
  rw [List.map_map]
  apply List.map_congr_left
  intro c _
  exact toLower_idem c

theorem effFold_idem (m : Manager) (p : GoStr) :
    effFold m (effFold m p) = effFold m p := by
  unfold effFold
  split_ifs with h
  · rfl
  · exact strToLower_idem p

theorem effFold_substring (m : Manager) {u v : GoStr} (h : u <:+: v) :
    effFold m u <:+: effFold m v := by
  unfold effFold
  split_ifs with hcs
  · exact h
  · exact List.IsInfix.map Char.toLower h

theorem mem_matchedList_singleton {m : Manager} {p : GoStr} {s : Sticker} :
    s ∈ matchedList m [[p]] ↔ s ∈ m.stickers ∧ goContains s.name (effFold m p) = true := by
  rw [matchedList_singleton, List.mem_filter]

theorem nodup_of_pairwise_lt {l : List Sticker}
    (h : List.Pairwise (fun a b => strLt a.name b.name) l) : l.Nodup :=
  h.imp (fun hab heq => absurd (heq ▸ hab) (strLt_irrefl _))

/-- **C4** (amended).  Renaming an entry whose source reference matches
uniquely, to a new name with no containment conflict beyond the renamed entry
itself (the trivial case the validation allows), succeeds when `os.Rename`
does, and a query for the new name afterwards returns exactly the renamed
entry — both unconditionally; a query for the OLD name returns zero matches
provided — this alone is the amendment the counterexample forces — the
(case-folded) old name is not a substring of the (case-folded) new name. -/
theorem RenameSticker_spec (m : Manager) (fs : FileSys) (src dst : GoStr)
    (w : RenameWorld) (orig : Sticker)
    (hsorted : List.Pairwise (fun a b => strLt a.name b.name) m.stickers)
    (hsrc : matchedList m [[src]] = [orig])
    (hslash : dst.contains '/' = false)
    (hdst : matchedList m [[dst]] = [] ∨ matchedList m [[dst]] = [orig])
    (hcont : (containedStickers m dst).erase orig = [])
    (hok : w.renameOk = true) :
    (RenameSticker m fs src dst w).1 = none ∧
    (¬ (effFold m orig.name <:+: effFold m dst) →
      matchedList (RenameSticker m fs src dst w).2.1 [[orig.name]] = []) ∧
    matchedList (RenameSticker m fs src dst w).2.1 [[dst]] =
      [⟨effFold m dst, m.root ++ '/' :: (dst ++ goExt orig.path)⟩] := by
  have horig_mem : orig ∈ m.stickers := by
    have : orig ∈ matchedList m [[src]] := by
      rw [hsrc]
      simp
    exact (mem_matchedList_singleton.mp this).1
  have horig_src : goContains orig.name (effFold m src) = true := by
    have : orig ∈ matchedList m [[src]] := by
      rw [hsrc]
      simp
    exact (mem_matchedList_singleton.mp this).2
  have hpass : renameValidationsPass m src dst := by
    refine ⟨by rw [hsrc]; rfl, hslash, ?_, by rw [hsrc]; exact hcont⟩
    rcases hdst with h | h <;> rw [hsrc, h]
    · simp
    · simp
  rcases RenameSticker_eval m fs src dst w with ⟨hnp, -, -⟩ | ⟨-, heq⟩
  · exact absurd hpass hnp
  · rw [heq, hok]
    simp only [Bool.not_true, Bool.false_eq_true, if_false]
    rw [hsrc]
    simp only [List.headD_cons]
    -- the erased slice contains neither `orig` nor any sticker whose name
    -- matches the new (or old) effective name
    have hnodup : m.stickers.Nodup := nodup_of_pairwise_lt hsorted
    have horig_not_mem_erase : orig ∉ m.stickers.erase orig := by
      intro h
      exact ((List.Nodup.mem_erase_iff hnodup).mp h).1 rfl
    have herase_no_dst : ∀ t ∈ m.stickers.erase orig,
        goContains t.name (effFold m dst) = false := by
      intro t ht
      rcases hgc : goContains t.name (effFold m dst) with _ | _
      · rfl
      · exfalso
        have htm : t ∈ matchedList m [[dst]] :=
          mem_matchedList_singleton.mpr ⟨List.mem_of_mem_erase ht, hgc⟩
        rcases hdst with h | h
        · rw [h] at htm
          cases htm
        · rw [h] at htm
          have : t = orig := by simpa using htm
          subst this
          exact horig_not_mem_erase ht
    have habs : ∀ t ∈ m.stickers.erase orig,
        t.name ≠ (if !m.caseSensitive then strToLower dst else dst) := by
      intro t ht hteq
      have := herase_no_dst t ht
      rw [hteq, effFold_eq_code] at this
      rw [goContains_iff_substring.mpr List.infix_rfl] at this
      cases this
    set m' : Manager := { m with stickers := m.stickers.erase orig } with hm'
    have habs' : ∀ t ∈ m'.stickers,
        t.name ≠ (if !m.caseSensitive then strToLower dst else dst) := habs
    obtain ⟨i, hi, hshape, hroot, hcs⟩ := insertSticker_shape m'
      ⟨if !m.caseSensitive then strToLower dst else dst,
       m.root ++ '/' :: (dst ++ goExt orig.path)⟩ habs'
    refine ⟨trivial, ?_, ?_⟩
    · -- old-name query is empty, given the amendment's proviso
      intro hnotin
      rw [matchedList_singleton, List.filter_eq_nil_iff]
      intro s hs
      have hcs' : (insertSticker m'
          ⟨if !m.caseSensitive then strToLower dst else dst,
           m.root ++ '/' :: (dst ++ goExt orig.path)⟩).caseSensitive = m.caseSensitive := hcs
      rw [hshape] at hs
      have heff : effFold (insertSticker m'
          ⟨if !m.caseSensitive then strToLower dst else dst,
           m.root ++ '/' :: (dst ++ goExt orig.path)⟩) orig.name
            = effFold m orig.name := by
        unfold effFold
        rw [hcs']
      rw [heff]
      rcases List.mem_append.mp hs with hstake | hscons
      · -- an untouched entry: it would have matched the unique src query
        have hsmem : s ∈ m'.stickers := (List.take_sublist i m'.stickers).subset hstake
        intro hgc
        have hinf : effFold m orig.name <:+: s.name := goContains_iff_substring.mp hgc
        have hsrcinf : effFold m src <:+: orig.name := goContains_iff_substring.mp horig_src
        have hsrcinf' : effFold m src <:+: effFold m orig.name := by
          have := effFold_substring m hsrcinf
          rwa [effFold_idem] at this
        have : goContains s.name (effFold m src) = true :=
          goContains_iff_substring.mpr (List.IsInfix.trans hsrcinf' hinf)
        have hmem2 : s ∈ matchedList m [[src]] :=
          mem_matchedList_singleton.mpr ⟨List.mem_of_mem_erase hsmem, this⟩
        rw [hsrc] at hmem2
        have : s = orig := by simpa using hmem2
        subst this
        exact horig_not_mem_erase hsmem
      · rcases List.mem_cons.mp hscons with rfl | hsdrop
        · -- the renamed entry: excluded by the amendment hypothesis
          intro hgc
          apply hnotin
          have := goContains_iff_substring.mp hgc
          rwa [effFold_eq_code] at this
        · have hsmem : s ∈ m'.stickers := (List.drop_sublist i m'.stickers).subset hsdrop
          intro hgc
          have hinf : effFold m orig.name <:+: s.name := goContains_iff_substring.mp hgc
          have hsrcinf : effFold m src <:+: orig.name := goContains_iff_substring.mp horig_src
          have hsrcinf' : effFold m src <:+: effFold m orig.name := by
            have := effFold_substring m hsrcinf
            rwa [effFold_idem] at this
          have : goContains s.name (effFold m src) = true :=
            goContains_iff_substring.mpr (List.IsInfix.trans hsrcinf' hinf)
          have hmem2 : s ∈ matchedList m [[src]] :=
            mem_matchedList_singleton.mpr ⟨List.mem_of_mem_erase hsmem, this⟩
          rw [hsrc] at hmem2
          have : s = orig := by simpa using hmem2
          subst this
          exact horig_not_mem_erase hsmem
    · -- new-name query returns exactly the renamed entry
      rw [matchedList_singleton]
      have hcs' : (insertSticker m'
          ⟨if !m.caseSensitive then strToLower dst else dst,
           m.root ++ '/' :: (dst ++ goExt orig.path)⟩).caseSensitive = m.caseSensitive := hcs
      have heff : effFold (insertSticker m'
          ⟨if !m.caseSensitive then strToLower dst else dst,
           m.root ++ '/' :: (dst ++ goExt orig.path)⟩) dst = effFold m dst := by
        unfold effFold
        rw [hcs']
      rw [heff, hshape, List.filter_append, List.filter_cons]
      have htake : List.filter
          (fun s => goContains s.name (effFold m dst)) (m'.stickers.take i) = [] := by
        rw [List.filter_eq_nil_iff]
        intro s hs
        have hsmem : s ∈ m'.stickers := (List.take_sublist i m'.stickers).subset hs
        rw [herase_no_dst s hsmem]
        simp
      have hdrop : List.filter
          (fun s => goContains s.name (effFold m dst)) (m'.stickers.drop i) = [] := by
        rw [List.filter_eq_nil_iff]
        intro s hs
        have hsmem : s ∈ m'.stickers := (List.drop_sublist i m'.stickers).subset hs
        rw [herase_no_dst s hsmem]
        simp
      rw [htake, hdrop]
      have hself : goContains
          (if !m.caseSensitive then strToLower dst else dst) (effFold m dst) = true := by
        rw [effFold_eq_code]
        exact goContains_iff_substring.mpr List.infix_rfl
      rw [if_pos hself]
      rw [← effFold_eq_code]
      rfl

/-- Closed witness for the amended C4: renaming `cat` to `dog` in a
one-sticker catalog succeeds, the old name no longer matches (the proviso
holds: `cat` is not a substring of `dog`), the new name matches exactly
once. -/
theorem RenameSticker_spec_witness :
    (RenameSticker ⟨"/r".toList, [⟨"cat".toList, "/r/cat.png".toList⟩], true⟩
      ["/r/cat.png".toList] "cat".toList "dog".toList ⟨true⟩).1 = none ∧
    matchedList
      (RenameSticker ⟨"/r".toList, [⟨"cat".toList, "/r/cat.png".toList⟩], true⟩
        ["/r/cat.png".toList] "cat".toList "dog".toList ⟨true⟩).2.1
      [["cat".toList]] = [] ∧
    matchedList
      (RenameSticker ⟨"/r".toList, [⟨"cat".toList, "/r/cat.png".toList⟩], true⟩
        ["/r/cat.png".toList] "cat".toList "dog".toList ⟨true⟩).2.1
      [["dog".toList]] =
      [⟨effFold ⟨"/r".toList, [⟨"cat".toList, "/r/cat.png".toList⟩], true⟩ "dog".toList,
        "/r".toList ++ '/' :: ("dog".toList ++ goExt "/r/cat.png".toList)⟩] := by
  have h := RenameSticker_spec ⟨"/r".toList, [⟨"cat".toList, "/r/cat.png".toList⟩], true⟩
    ["/r/cat.png".toList] "cat".toList "dog".toList ⟨true⟩
    ⟨"cat".toList, "/r/cat.png".toList⟩
    (by decide) (by decide) (by decide) (Or.inl (by decide)) (by decide) rfl
  exact ⟨h.1, h.2.1 (by decide), h.2.2⟩

/-! ### C5: hint rendering round-trip and prefix distinctness -/

/-- Deleting the bracket delimiter characters from a rendered hint — the
executable reading of the claim's "deleting the bracket delimiters". -/
def delBrackets (s : GoStr) : GoStr := s.filter (fun c => c != '[' && c != ']')

/-- **C5 counterexample.**  For names that themselves contain a bracket, the
round-trip fails: `["[xa", "[ya"]` is collision-free with hint lengths 2, but
rendering `"[xa"` with hint 2 gives `"[x[a]"`, and deleting the bracket
characters yields `"xa"`, not the original `"[xa"`. -/
theorem withHint_roundtrip_counterexample :
    countUniqLen ["[xa".toList, "[ya".toList] = .ok [2, 2] ∧
    withHint "[xa".toList 2 = some "[x[a]".toList ∧
    delBrackets "[x[a]".toList = "xa".toList ∧
    "xa".toList ≠ "[xa".toList := by
  refine ⟨rfl, by decide, by decide, by decide⟩

theorem countUniqLenTwo_prefix_of_ge : ∀ {a b : GoStr},
    a.length ≤ countUniqLenTwo a b → a <+: b := by
  intro a
  induction a with
  | nil => intro b _; exact List.nil_prefix
  | cons x xs ih =>
    intro b h
    cases b with
    | nil => simp [countUniqLenTwo] at h
    | cons y ys =>
      simp only [countUniqLenTwo] at h
      split_ifs at h with hxy
      · subst hxy
        rw [List.length_cons] at h
        exact List.cons_prefix_cons.mpr ⟨rfl, ih (by omega)⟩
      · simp at h

theorem countUniqLenTwo_ge_of_take_eq : ∀ {k : Nat} {a b : GoStr},
    a.take k = b.take k → k ≤ a.length → k ≤ countUniqLenTwo a b := by
  intro k
  induction k with
  | zero => intro a b _ _; omega
  | succ n ih =>
    intro a b htake hlen
    cases a with
    | nil => simp at hlen
    | cons x xs =>
      cases b with
      | nil => simp [List.take] at htake
      | cons y ys =>
        simp only [List.take_succ_cons, List.cons.injEq] at htake
        obtain ⟨rfl, htake'⟩ := htake
        have hrec := ih htake' (by simpa using Nat.le_of_succ_le_succ (by simpa using hlen))
        simp only [countUniqLenTwo, if_true, eq_self_iff_true]
        omega

theorem le_hintAgainst_init (s : GoStr) (others : List GoStr) (a : Nat) :
    a ≤ hintAgainst s others a := by
  induction others generalizing a with
  | nil => exact le_refl a
  | cons t ts ih =>
    unfold hintAgainst at ih ⊢
    rw [List.foldl_cons]
    exact le_trans (le_max_left _ _) (ih _)

theorem le_hintAgainst_of_mem {s t : GoStr} {others : List GoStr} (a : Nat)
    (ht : t ∈ others) : countUniqLenTwo s t + 1 ≤ hintAgainst s others a := by
  induction others generalizing a with
  | nil => cases ht
  | cons u us ih =>
    unfold hintAgainst at ih ⊢
    rw [List.foldl_cons]
    rcases List.mem_cons.mp ht with rfl | ht'
    · exact le_trans (le_max_right _ _) (le_hintAgainst_init _ _ _)
    · exact ih _ ht'

theorem hintAgainst_le {s : GoStr} {others : List GoStr} {a L : Nat}
    (ha : a ≤ L) (h : ∀ t ∈ others, countUniqLenTwo s t + 1 ≤ L) :
    hintAgainst s others a ≤ L := by
  induction others generalizing a with
  | nil => exact ha
  | cons t ts ih =>
    unfold hintAgainst at ih ⊢
    rw [List.foldl_cons]
    exact ih (max_le ha (h t (by simp))) (fun u hu => h u (by simp [hu]))

theorem countUniqLen_ok_noconflict {strs : List GoStr} {hints : List Nat}
    (hok : countUniqLen strs = .ok hints) : NoPairConflict strs := by
  by_contra hnc
  obtain ⟨e, he⟩ := (cULOuter_error_iff strs (List.replicate strs.length 0)
    (by simp)).mpr hnc
  rw [countUniqLen, he] at hok
  cases hok

theorem countUniqLen_ok_getD {strs : List GoStr} {hints : List Nat}
    (hok : countUniqLen strs = .ok hints) :
    hints.length = strs.length ∧
    ∀ i (h : i < strs.length),
      hints.getD i 0 = hintAgainst (strs[i]) (strs.eraseIdx i) 0 := by
  obtain ⟨ret, hret, hlen, hval⟩ := cULOuter_ok strs (List.replicate strs.length 0)
    (by simp) (countUniqLen_ok_noconflict hok)
  rw [countUniqLen, hret] at hok
  cases hok
  refine ⟨hlen, fun i h => ?_⟩
  have := hval i h
  rw [List.getD_eq_getElem strs [] h,
    List.getD_eq_getElem (List.replicate strs.length 0) 0 (by simpa using h),
    List.getElem_replicate] at this
  exact this

/-- The mutual-conflict-freedom of any two distinct positions, in prefix
form (the conflict test is symmetric in content). -/
theorem no_conflict_pair {strs : List GoStr} (hnc : NoPairConflict strs)
    {i j : Nat} (hi : i < strs.length) (hj : j < strs.length) (hij : i ≠ j) :
    ¬ (strs[i] <+: strs[j]) := by
  rw [noPairConflict_iff] at hnc
  rcases Nat.lt_or_ge i j with hlt | hge
  · have := hnc i j hi hj hlt
    tauto
  · have hjlt : j < i := by omega
    have := hnc j i hj hi hjlt
    tauto

/-- Members of `eraseIdx i` are exactly the entries at the other indices. -/
theorem hint_le_length {strs : List GoStr} {hints : List Nat}
    (hok : countUniqLen strs = .ok hints) {i : Nat} (hi : i < strs.length) :
    hints.getD i 0 ≤ (strs[i]).length := by
  rw [(countUniqLen_ok_getD hok).2 i hi]
  apply hintAgainst_le (Nat.zero_le _)
  intro t ht
  obtain ⟨j, hj, hji, rfl⟩ := List.mem_eraseIdx_iff_getElem.mp ht
  have hnp : ¬ (strs[i] <+: strs[j]) :=
    no_conflict_pair (countUniqLen_ok_noconflict hok) hi hj (fun h => hji h.symm)
  have : countUniqLenTwo (strs[i]) (strs[j]) < (strs[i]).length := by
    by_contra hge
    exact hnp (countUniqLenTwo_prefix_of_ge (by omega))
  omega

/-- **C5** (amended).  For every collision-free name list and the hint
lengths `countUniqLen` computes: rendering a name with its hint and deleting
the bracket characters reproduces the name exactly, provided — this is the
amendment the counterexample forces — the names themselves contain no `[` or
`]`; and unconditionally, for distinct indices, the first `hint` code points
of one name never form a prefix of the first `hint` code points of the
other. -/
theorem withHint_roundtrip (strs : List GoStr) (hints : List Nat)
    (hok : countUniqLen strs = .ok hints) :
    ((∀ s ∈ strs, '[' ∉ s ∧ ']' ∉ s) →
      ∀ i (h : i < strs.length),
        ∃ r, withHint (strs[i]) (hints.getD i 0) = some r ∧
          delBrackets r = strs[i]) ∧
    (∀ i j (hi : i < strs.length) (hj : j < strs.length), i ≠ j →
      ¬ ((strs[i]).take (hints.getD i 0) <+: (strs[j]).take (hints.getD j 0))) := by
  constructor
  · intro hnb i h
    have hle := hint_le_length hok h
    have hnbi := hnb (strs[i]) (List.getElem_mem h)
    by_cases heq : (strs[i]).length = hints.getD i 0
    · refine ⟨strs[i], by rw [withHint, if_pos heq], ?_⟩
      rw [delBrackets, List.filter_eq_self]
      intro c hc
      simp only [Bool.and_eq_true, bne_iff_ne, ne_eq]
      exact ⟨fun hcb => hnbi.1 (hcb ▸ hc), fun hcb => hnbi.2 (hcb ▸ hc)⟩
    · refine ⟨_, by rw [withHint, if_neg heq, if_pos hle], ?_⟩
      have hfil : ∀ (l : GoStr), (∀ c ∈ l, c ∈ strs[i]) →
          List.filter (fun c => c != '[' && c != ']') l = l := by
        intro l hl
        rw [List.filter_eq_self]
        intro c hc
        simp only [Bool.and_eq_true, bne_iff_ne, ne_eq]
        exact ⟨fun hcb => hnbi.1 (hcb ▸ hl c hc), fun hcb => hnbi.2 (hcb ▸ hl c hc)⟩
      rw [delBrackets, List.filter_append, List.filter_cons]
      rw [if_neg (by simp)]
      rw [List.filter_append, List.filter_cons]
      rw [if_neg (by simp)]
      rw [List.filter_nil, List.append_nil]
      rw [hfil _ (fun c hc => (List.take_sublist _ _).subset hc),
        hfil _ (fun c hc => (List.drop_sublist _ _).subset hc)]
      exact List.take_append_drop _ _
  · intro i j hi hj hij hpre
    have hlei := hint_le_length hok hi
    have hlej := hint_le_length hok hj
    have hleni : ((strs[i]).take (hints.getD i 0)).length = hints.getD i 0 := by
      rw [List.length_take]
      omega
    have hlenj : ((strs[j]).take (hints.getD j 0)).length = hints.getD j 0 := by
      rw [List.length_take]
      omega
    have hij_le : hints.getD i 0 ≤ hints.getD j 0 := by
      have := hpre.length_le
      omega
    have htake_eq : (strs[i]).take (hints.getD i 0) =
        (strs[j]).take (hints.getD i 0) := by
      have := List.prefix_iff_eq_take.mp hpre
      rw [hleni] at this
      rw [this, List.take_take]
      congr 1
      omega
    have hlcp : hints.getD i 0 ≤ countUniqLenTwo (strs[i]) (strs[j]) :=
      countUniqLenTwo_ge_of_take_eq htake_eq hlei
    have hgt : countUniqLenTwo (strs[i]) (strs[j]) + 1 ≤ hints.getD i 0 := by
      rw [(countUniqLen_ok_getD hok).2 i hi]
      exact le_hintAgainst_of_mem 0
        (List.mem_eraseIdx_iff_getElem.mpr ⟨j, hj, fun h => hij h.symm, rfl⟩)
    omega

/-- Closed witness for the amended C5 on the collision-free pair
`["ab", "ac"]`. -/
theorem withHint_roundtrip_witness :
    (∃ r, withHint "ab".toList ([2, 2].getD 0 0) = some r ∧
      delBrackets r = "ab".toList) ∧
    ¬ (("ab".toList).take ([2, 2].getD 0 0) <+: ("ac".toList).take ([2, 2].getD 1 0)) := by
  constructor
  · exact (withHint_roundtrip ["ab".toList, "ac".toList] [2, 2] rfl).1
      (by decide) 0 (by decide)
  · exact (withHint_roundtrip ["ab".toList, "ac".toList] [2, 2] rfl).2
      0 1 (by decide) (by decide) (by decide)

/-! ### C9: the CoolDownCounter (`utils`) as a discrete-event system -/

/-- The cooldown register plus its outstanding sleep-goroutines: `items` is
the key set of the Go map (`map[interface{}]bool`, keys modelled as `Nat`),
`timers` the pending goroutines as (key, absolute fire time) — the
`time.Sleep(d)` started at `t` fires at `t + d` (idealized exact sleep). -/
structure CDState where
  items : List Nat
  timers : List (Nat × Nat)
deriving DecidableEq, Repr

/-- `NewCoolDownCounter()`. -/
def CDState.empty : CDState := ⟨[], []⟩

/-- `RemoveCoolDown(item)`: delete the key from the map; pending timers are
fire-and-forget and stay. -/
def removeCoolDown (st : CDState) (k : Nat) : CDState :=
  { st with items := st.items.erase k }

/-- `CoolDown(d, item)` invoked at absolute time `now`: reject while the key
is present (a complete no-op — no timer reset, no second timer), otherwise
mark present and spawn the goroutine that will fire at `now + d`. -/
def coolDown (st : CDState) (now d k : Nat) : CDState × Bool :=
  if k ∈ st.items then (st, false)
  else ({ items := k :: st.items, timers := (k, now + d) :: st.timers }, true)

/-- A pending timer firing at its due time: the goroutine wakes and calls
`RemoveCoolDown`; the timer entry is consumed. -/
def fireTimer (st : CDState) (k t : Nat) : CDState :=
  removeCoolDown { st with timers := st.timers.erase (k, t) } k

/-- The observable events of the register. -/
inductive CDEvent where
  | call (d k : Nat) (ret : Bool)
  | remove (k : Nat)
  | fire (k : Nat)
deriving DecidableEq, Repr

/-- Valid timed traces: `CDValid now st tr fin` — starting from state `st`
no earlier than `now`, the timestamped events of `tr` may occur in order and
end in state `fin`.  Every event carries a punctuality condition: no pending
timer's due time may have passed already (its sleeping goroutine would have
fired first). -/
inductive CDValid : Nat → CDState → List (Nat × CDEvent) → CDState → Prop
  | nil (now : Nat) (st : CDState) : CDValid now st [] st
  | call (now t d k : Nat) (st st' fin : CDState) (ret : Bool)
      (rest : List (Nat × CDEvent))
      (hle : now ≤ t) (hdue : ∀ p ∈ st.timers, t ≤ p.2)
      (hstep : coolDown st t d k = (st', ret))
      (hrest : CDValid t st' rest fin) :
      CDValid now st ((t, .call d k ret) :: rest) fin
  | remove (now t k : Nat) (st fin : CDState) (rest : List (Nat × CDEvent))
      (hle : now ≤ t) (hdue : ∀ p ∈ st.timers, t ≤ p.2)
      (hrest : CDValid t (removeCoolDown st k) rest fin) :
      CDValid now st ((t, .remove k) :: rest) fin
  | fire (now t k : Nat) (st fin : CDState) (rest : List (Nat × CDEvent))
      (hle : now ≤ t) (hmem : (k, t) ∈ st.timers)
      (hdue : ∀ p ∈ st.timers, t ≤ p.2)
      (hrest : CDValid t (fireTimer st k t) rest fin) :
      CDValid now st ((t, .fire k) :: rest) fin

/-- **C9 counterexample.**  A valid trace: key 7 accepted at time 0 with
d = 10 (timer due 10), explicitly removed at 3, accepted again at 5 (second
timer due 15) — and then the first, non-cancellable timer fires at 10 and
removes the key only 5 units after the second insertion, although no
`RemoveCoolDown` intervened: the key was NOT removed exactly one duration
after "that insertion". -/
theorem coolDown_timer_counterexample :
    CDValid 0 CDState.empty
      [(0, .call 10 7 true), (3, .remove 7), (5, .call 10 7 true), (10, .fire 7)]
      ⟨[], [(7, 15)]⟩ ∧
    (coolDown ⟨[], [(7, 10)]⟩ 5 10 7).2 = true ∧
    7 ∉ (⟨[], [(7, 15)]⟩ : CDState).items ∧
    10 < 5 + 10 := by
  refine ⟨?_, by decide, by decide, by decide⟩
  refine CDValid.call 0 0 10 7 CDState.empty ⟨[7], [(7, 10)]⟩ _ true _
    (le_refl 0) (by decide) (by decide) ?_
  refine CDValid.remove 0 3 7 _ _ _ (by omega) (by decide) ?_
  refine CDValid.call 3 5 10 7 _ ⟨[7], [(7, 15), (7, 10)]⟩ _ true _
    (by omega) (by decide) (by decide) ?_
  refine CDValid.fire 5 10 7 _ _ _ (by omega) (by decide) (by decide) ?_
  exact CDValid.nil 10 _

/-- The per-key exactly-one-timer invariant used for the amended C9. -/
def CDInv (k tf : Nat) (st : CDState) : Prop :=
  k ∈ st.items ∧ (k, tf) ∈ st.timers ∧ ∀ t', (k, t') ∈ st.timers → t' = tf

theorem cdInv_call {k tf : Nat} {st st' : CDState} {t d k' : Nat} {ret : Bool}
    (hinv : CDInv k tf st) (hstep : coolDown st t d k' = (st', ret)) :
    CDInv k tf st' := by
  unfold coolDown at hstep
  split_ifs at hstep with hmem
  · cases hstep
    exact hinv
  · cases hstep
    have hkk : k' ≠ k := fun h => hmem (h ▸ hinv.1)
    refine ⟨by simp [hinv.1], by simp [hinv.2.1], ?_⟩
    intro t' ht'
    rcases List.mem_cons.mp ht' with heq | hmem'
    · cases heq
      exact absurd rfl hkk
    · exact hinv.2.2 t' hmem'

theorem cdInv_remove {k tf : Nat} {st : CDState} {k' : Nat}
    (hinv : CDInv k tf st) (hkk : k' ≠ k) :
    CDInv k tf (removeCoolDown st k') := by
  refine ⟨?_, hinv.2.1, hinv.2.2⟩
  exact (List.mem_erase_of_ne (fun h => hkk h.symm)).mpr hinv.1

theorem cdInv_fire {k tf : Nat} {st : CDState} {k' t : Nat}
    (hinv : CDInv k tf st) (hkk : k' ≠ k) :
    CDInv k tf (fireTimer st k' t) := by
  refine ⟨?_, ?_, ?_⟩
  · exact (List.mem_erase_of_ne (fun h => hkk h.symm)).mpr hinv.1
  · exact (List.mem_erase_of_ne (fun h => hkk (congrArg Prod.fst h).symm)).mpr hinv.2.1
  · intro t' ht'
    exact hinv.2.2 t' (List.mem_of_mem_erase ht')

/-- Before the due time, with no explicit removal of `k`, the invariant (and
hence the key's presence) persists along every valid trace. -/
theorem cdInv_persists {k tf : Nat} :
    ∀ {now : Nat} {st fin : CDState} {tr : List (Nat × CDEvent)},
      CDValid now st tr fin → CDInv k tf st →
      (∀ e ∈ tr, e.2 ≠ CDEvent.remove k) →
      (∀ e ∈ tr, e.1 < tf) →
      CDInv k tf fin := by
  intro now st fin tr hvalid
  induction hvalid with
  | nil _ _ => exact fun hinv _ _ => hinv
  | call now t d k' st st' fin ret rest hle hdue hstep hrest ih =>
    intro hinv hnr htime
    exact ih (cdInv_call hinv hstep)
      (fun e he => hnr e (by simp [he])) (fun e he => htime e (by simp [he]))
  | remove now t k' st fin rest hle hdue hrest ih =>
    intro hinv hnr htime
    have hkk : k' ≠ k := by
      intro h
      exact hnr (t, .remove k') (by simp) (by simp [h])
    exact ih (cdInv_remove hinv hkk)
      (fun e he => hnr e (by simp [he])) (fun e he => htime e (by simp [he]))
  | fire now t k' st fin rest hle hmem hdue hrest ih =>
    intro hinv hnr htime
    have hkk : k' ≠ k := by
      intro h
      subst h
      have := hinv.2.2 t hmem
      have := htime (t, .fire k') (by simp)
      simp at this
      omega
    exact ih (cdInv_fire hinv hkk)
      (fun e he => hnr e (by simp [he])) (fun e he => htime e (by simp [he]))

/-- The first firing of `k`'s timer, with no earlier removal or firing of
`k`, happens exactly at the invariant's due time. -/
theorem cd_fire_punctual {k tf : Nat} :
    ∀ {now : Nat} {st fin : CDState} {tr : List (Nat × CDEvent)},
      CDValid now st tr fin → CDInv k tf st →
      ∀ pre t post, tr = pre ++ (t, CDEvent.fire k) :: post →
        (∀ e ∈ pre, e.2 ≠ CDEvent.remove k ∧ e.2 ≠ CDEvent.fire k) →
        t = tf := by
  intro now st fin tr hvalid
  induction hvalid with
  | nil _ _ =>
    intro hinv pre t post habs _
    exact absurd habs (by simp)
  | call now t d k' st st' fin ret rest hle hdue hstep hrest ih =>
    intro hinv pre tt post heq hpre
    cases pre with
    | nil => cases heq
    | cons e pre' =>
      simp only [List.cons_append, List.cons.injEq] at heq
      exact ih (cdInv_call hinv hstep) pre' tt post heq.2
        (fun e' he' => hpre e' (by simp [he']))
  | remove now t k' st fin rest hle hdue hrest ih =>
    intro hinv pre tt post heq hpre
    cases pre with
    | nil => cases heq
    | cons e pre' =>
      simp only [List.cons_append, List.cons.injEq] at heq
      have hkk : k' ≠ k := by
        intro h
        subst h
        have h2 := hpre e (by simp)
        rw [← heq.1] at h2
        exact h2.1 rfl
      exact ih (cdInv_remove hinv hkk) pre' tt post heq.2
        (fun e' he' => hpre e' (by simp [he']))
  | fire now t k' st fin rest hle hmem hdue hrest ih =>
    intro hinv pre tt post heq hpre
    cases pre with
    | nil =>
      simp only [List.nil_append, List.cons.injEq] at heq
      obtain ⟨heq1, -⟩ := heq
      obtain ⟨rfl, hk⟩ : tt = t ∧ k' = k := by
        have h1 := congrArg Prod.fst heq1
        have h2 := congrArg Prod.snd heq1
        simp at h1 h2
        exact ⟨h1.symm, by cases h2; rfl⟩
      subst hk
      exact hinv.2.2 tt hmem
    | cons e pre' =>
      simp only [List.cons_append, List.cons.injEq] at heq
      have hkk : k' ≠ k := by
        intro h
        subst h
        have h2 := hpre e (by simp)
        rw [← heq.1] at h2
        exact h2.2 rfl
      exact ih (cdInv_fire hinv hkk) pre' tt post heq.2
        (fun e' he' => hpre e' (by simp [he']))

/-- **C9** (amended).  `CoolDown` accepts exactly when the key is absent and
rejection is a complete no-op (no reset, no second timer); acceptance spawns
the one timer due a full duration later; an explicit `RemoveCoolDown` makes
the next call accept immediately; and — amended by the counterexample — for
a key accepted while NO stale timer for it is pending, the key stays present
up to the due time (absent explicit removal) and the first firing of its
timer happens exactly one duration after that insertion.  (With a stale
timer pending, the counterexample shows early removal.) -/
theorem coolDown_spec :
    (∀ (st : CDState) (now d k : Nat),
      (k ∈ st.items → coolDown st now d k = (st, false)) ∧
      (k ∉ st.items →
        coolDown st now d k =
          ({ items := k :: st.items, timers := (k, now + d) :: st.timers }, true))) ∧
    (∀ (st : CDState) (now d k : Nat), st.items.Nodup →
      (coolDown (removeCoolDown st k) now d k).2 = true) ∧
    (∀ (st : CDState) (t₀ d k : Nat), k ∉ st.items → (∀ t', (k, t') ∉ st.timers) →
      ∀ tr fin, CDValid t₀ (coolDown st t₀ d k).1 tr fin →
        (∀ e ∈ tr, e.2 ≠ CDEvent.remove k) →
        ((∀ e ∈ tr, e.1 < t₀ + d) → k ∈ fin.items) ∧
        (∀ pre t post, tr = pre ++ (t, CDEvent.fire k) :: post →
          (∀ e ∈ pre, e.2 ≠ CDEvent.fire k) → t = t₀ + d)) := by
  refine ⟨?_, ?_, ?_⟩
  · intro st now d k
    constructor
    · intro h
      unfold coolDown
      rw [if_pos h]
    · intro h
      unfold coolDown
      rw [if_neg h]
  · intro st now d k hnd
    unfold coolDown
    split_ifs with h
    · exact absurd rfl ((List.Nodup.mem_erase_iff hnd).mp h).1
    · rfl
  · intro st t₀ d k hk htimer tr fin hvalid hnr
    have hstep : coolDown st t₀ d k =
        ({ items := k :: st.items, timers := (k, t₀ + d) :: st.timers }, true) := by
      unfold coolDown
      rw [if_neg hk]
    have hinv : CDInv k (t₀ + d) (coolDown st t₀ d k).1 := by
      rw [hstep]
      refine ⟨by simp, by simp, ?_⟩
      intro t' ht'
      rcases List.mem_cons.mp ht' with heq | hmem'
      · cases heq
        rfl
      · exact absurd hmem' (htimer t')
    constructor
    · intro htime
      exact (cdInv_persists hvalid hinv hnr htime).1
    · intro pre t post heq hpre
      exact cd_fire_punctual hvalid hinv pre t post heq
        (fun e he => ⟨hnr e (by rw [heq]; simp [he]), hpre e he⟩)

/-- Closed witness for the amended C9: from the empty register, key 1
accepted at time 0 with duration 5; the sole valid firing of its timer, as
the first event, happens exactly at time 5; rejection/no-op and
remove-then-accept checked on concrete states. -/
theorem coolDown_spec_witness :
    coolDown ⟨[1], [(1, 5)]⟩ 2 5 1 = (⟨[1], [(1, 5)]⟩, false) ∧
    (coolDown (removeCoolDown ⟨[1], [(1, 5)]⟩ 1) 2 5 1).2 = true ∧
    (5 : Nat) = 0 + 5 := by
  refine ⟨?_, ?_, ?_⟩
  · exact (coolDown_spec.1 ⟨[1], [(1, 5)]⟩ 2 5 1).1 (by decide)
  · exact coolDown_spec.2.1 ⟨[1], [(1, 5)]⟩ 2 5 1 (by decide)
  · refine coolDown_spec.2.2 CDState.empty 0 5 1 (by decide) (fun t' => by simp [CDState.empty])
      [(5, .fire 1)] ⟨[], []⟩ ?_ (by decide) |>.2 [] 5 [] rfl (by decide)
    refine CDValid.fire 0 5 1 _ _ _ (by omega) (by decide) (by decide) ?_
    exact CDValid.nil 5 _

end DiscordSticker
